import Mathlib

set_option maxRecDepth 200000

/-!
Verification of the btck-rust-node P2P/mempool engine.

This file shallowly embeds the parts of the Rust sources needed by the
checked properties:

* `src/mempool/entry.rs`   — `FeeRate`, `MempoolEntry`
* `src/mempool/policy.rs`  — `MempoolPolicy`, `check_rbf`, `check_ancestor_limits`
* `src/mempool/txmempool.rs` — `Mempool` with `add_tx`, `remove_tx`,
  `handle_replacement`, `maybe_evict`, `get_block_template`, helpers
* `src/mempool/fees.rs`    — `FeeEstimator.estimate_fee_for_target`
* `src/p2p/legacy.rs`      — `Downloader` (push_many / poll_assign / complete /
  reassign_timeouts), `extend_headers`, `check_headers_sync_complete`,
  `build_locator`
* `src/p2p/inventory.rs`   — `InventoryManager` (announce / get_requests /
  check_timeouts)

Hashes (`Txid`, `BlockHash`) are abstracted as `Nat`; socket addresses as
`Nat`; wall-clock instants as `Nat` passed explicitly where the source reads
a clock.  Rust `HashSet` fields are embedded as duplicate-free `List Nat`
with dedup-on-insert; `DashMap`/`HashMap` as association lists.  `u64`/`usize`
arithmetic that cannot overflow in the modelled states is embedded as `Nat`
(with `Nat` truncated subtraction standing for `saturating_sub`), and `i64`
deltas as `Int` with `Int.toNat` standing for the Rust `.max(0) as u64`.
-/

namespace BtckNode

/-- Association-list lookup for `Nat`-keyed maps (DashMap / HashMap model). -/
def lookupA {β : Type} (k : Nat) : List (Nat × β) → Option β
  | [] => none
  | (k', v) :: rest => if k' = k then some v else lookupA k rest

/-- Association-list key removal (`map.remove(k)`). -/
def eraseKey {β : Type} (k : Nat) : List (Nat × β) → List (Nat × β)
  | [] => []
  | (k', v) :: rest => if k' = k then rest else (k', v) :: eraseKey k rest

/-- Association-list insert that replaces an existing binding (`map.insert`). -/
def insertA {β : Type} (k : Nat) (v : β) (m : List (Nat × β)) : List (Nat × β) :=
  (k, v) :: eraseKey k m

/-- HashSet insert on a duplicate-free list. -/
def setInsert (x : Nat) (s : List Nat) : List Nat :=
  if x ∈ s then s else s ++ [x]

/-- HashSet remove on a duplicate-free list. -/
def setRemove (x : Nat) (s : List Nat) : List Nat :=
  s.erase x

/-- Stable insertion used by `sortByLe`; an element is placed after every
element the comparator keeps in front of it, so ties keep their original
order, matching Rust's stable `sort_by`. -/
def insertLe {α : Type} (le : α → α → Bool) (x : α) : List α → List α
  | [] => [x]
  | y :: ys => if le y x then y :: insertLe le x ys else x :: y :: ys

/-- Stable sort by a boolean "comes before or ties" relation, embedding Rust's
stable `Vec::sort_by`. -/
def sortByLe {α : Type} (le : α → α → Bool) (l : List α) : List α :=
  l.foldl (fun acc x => insertLe le x acc) []

/-! ## Mempool data model (`src/mempool/entry.rs`) -/

/-- One transaction input: the spent outpoint `(txid, vout)` and the nSequence
field (`TxIn`). -/
structure TxIn where
  prevoutTxid : Nat
  prevoutVout : Nat
  sequence : Nat
  deriving DecidableEq, Repr

/-- Abstract transaction: its id (the value `compute_txid()` would return),
its inputs, its virtual size (`tx.vsize()`) and its weight in weight units
(`tx.weight().to_wu()`; in real transactions `weight = 4 * vsize` up to
rounding). -/
structure Tx where
  txid : Nat
  inputs : List TxIn
  vsize : Nat
  weight : Nat
  deriving DecidableEq, Repr

/-- BIP 125 signalling: any input sequence below 0xfffffffe
(`MempoolEntry::check_rbf_signaling`). -/
def check_rbf_signaling (tx : Tx) : Bool :=
  tx.inputs.any (fun i => i.sequence < 0xfffffffe)

/-- `MempoolEntry` from `entry.rs` (the `time` field is dropped: no checked
property mentions expiry).  `fee_rate` is sat/vB as in `FeeRate`. -/
structure MempoolEntry where
  tx : Tx
  txid : Nat
  vsize : Nat
  fee : Nat
  fee_rate : Nat
  height : Nat
  parents : List Nat
  children : List Nat
  ancestor_size : Nat
  ancestor_count : Nat
  ancestor_fees : Nat
  descendant_size : Nat
  descendant_count : Nat
  descendant_fees : Nat
  signals_replacement : Bool
  deriving DecidableEq, Repr

/-- `MempoolEntry::new`. -/
def MempoolEntry.mk_new (tx : Tx) (fee : Nat) (height : Nat) : MempoolEntry :=
  let vsize := tx.vsize
  { tx := tx
    txid := tx.txid
    vsize := vsize
    fee := fee
    fee_rate := fee / (max vsize 1)
    height := height
    parents := []
    children := []
    ancestor_size := vsize
    ancestor_count := 1
    ancestor_fees := fee
    descendant_size := vsize
    descendant_count := 1
    descendant_fees := fee
    signals_replacement := check_rbf_signaling tx }

/-- `MempoolEntry::ancestor_fee_rate`. -/
def MempoolEntry.ancestor_fee_rate (e : MempoolEntry) : Nat :=
  e.ancestor_fees / (max e.ancestor_size 1)

/-- `MempoolEntry::update_ancestor_state`: i64 deltas, clamped at zero. -/
def MempoolEntry.update_ancestor_state (e : MempoolEntry)
    (size_delta fee_delta count_delta : Int) : MempoolEntry :=
  { e with
    ancestor_size := ((e.ancestor_size : Int) + size_delta).toNat
    ancestor_fees := ((e.ancestor_fees : Int) + fee_delta).toNat
    ancestor_count := ((e.ancestor_count : Int) + count_delta).toNat }

/-- `MempoolEntry::update_descendant_state`: i64 deltas, clamped at zero. -/
def MempoolEntry.update_descendant_state (e : MempoolEntry)
    (size_delta fee_delta count_delta : Int) : MempoolEntry :=
  { e with
    descendant_size := ((e.descendant_size : Int) + size_delta).toNat
    descendant_fees := ((e.descendant_fees : Int) + fee_delta).toNat
    descendant_count := ((e.descendant_count : Int) + count_delta).toNat }

/-! ## Mempool policy (`src/mempool/policy.rs`) -/

/-- `MempoolPolicy`; fee rates in sat/vB (the `FeeRate` newtype). -/
structure MempoolPolicy where
  max_size : Nat
  min_relay_fee : Nat
  max_ancestors : Nat
  max_ancestor_size_kb : Nat
  max_descendants : Nat
  max_descendant_size_kb : Nat
  max_tx_size : Nat
  dust_relay_fee : Nat
  incremental_relay_fee : Nat
  enable_rbf : Bool
  deriving DecidableEq, Repr

/-- `MempoolPolicy::default` (= `mainnet`). -/
def MempoolPolicy.default_ : MempoolPolicy :=
  { max_size := 300 * 1024 * 1024
    min_relay_fee := 1
    max_ancestors := 25
    max_ancestor_size_kb := 101
    max_descendants := 25
    max_descendant_size_kb := 101
    max_tx_size := 100000
    dust_relay_fee := 3
    incremental_relay_fee := 1
    enable_rbf := true }

/-- Errors returned by the mempool paths (the `anyhow!`/`String` messages of
the source mapped to constructors, one per return site). -/
inductive MemErr where
  | alreadyInMempool
  | txTooLarge
  | feeRateTooLow
  | conflictNotSignaled
  | conflictingTxNoRbf
  | rbfDisabled
  | doesNotSignalRbf
  | insufficientFeeBump
  | tooManyAncestors
  | ancestorSizeTooLarge
  | notInMempool
  deriving DecidableEq, Repr

/-- `MempoolPolicy::is_fee_acceptable`. -/
def MempoolPolicy.is_fee_acceptable (p : MempoolPolicy) (fee_rate : Nat) : Bool :=
  p.min_relay_fee ≤ fee_rate

/-- `MempoolPolicy::is_size_acceptable`. -/
def MempoolPolicy.is_size_acceptable (p : MempoolPolicy) (size : Nat) : Bool :=
  size ≤ p.max_tx_size

/-- `MempoolPolicy::check_ancestor_limits`. -/
def MempoolPolicy.check_ancestor_limits (p : MempoolPolicy)
    (count : Nat) (size : Nat) : Except MemErr Unit :=
  if p.max_ancestors < count then .error .tooManyAncestors
  else if p.max_ancestor_size_kb * 1024 < size then .error .ancestorSizeTooLarge
  else .ok ()

/-- `MempoolPolicy::check_rbf`: `size_delta.abs()` then
`fee_for_vsize = rate * size`, reject when `fee_delta < min_fee`. -/
def MempoolPolicy.check_rbf (p : MempoolPolicy)
    (signals_rbf : Bool) (fee_delta : Nat) (size_delta : Int) : Except MemErr Unit :=
  if !p.enable_rbf then .error .rbfDisabled
  else if !signals_rbf then .error .doesNotSignalRbf
  else
    let size := size_delta.natAbs
    let min_fee := p.incremental_relay_fee * size
    if fee_delta < min_fee then .error .insufficientFeeBump
    else .ok ()

/-! ## Fee estimator (`src/mempool/fees.rs`) -/

/-- `FeeEstimator` state.  `confirmations` is the per-bucket vector of
confirmation counts indexed by blocks-to-confirm; `history` keeps only the
recorded fee rates (timestamps and confirmed-block marks feed no checked
property). -/
structure FeeEstimator where
  history : List Nat
  max_history : Nat
  buckets : List Nat
  confirmations : List (List Nat)
  current_height : Nat
  min_tracked_fee : Nat
  fallback_fee : Nat
  deriving DecidableEq, Repr

/-- `FeeEstimator::new`: 13 buckets, 25 block targets each. -/
def FeeEstimator.new_ : FeeEstimator :=
  { history := []
    max_history := 10000
    buckets := [1, 2, 3, 5, 10, 20, 30, 50, 100, 200, 300, 500, 1000]
    confirmations := List.replicate 13 (List.replicate 25 0)
    current_height := 0
    min_tracked_fee := 1
    fallback_fee := 20 }

/-- `FeeEstimator::add_tx`: ignore rates below `min_tracked_fee`, push, trim
the front while over `max_history`. -/
def FeeEstimator.add_tx (est : FeeEstimator) (fee_rate : Nat) : FeeEstimator :=
  if fee_rate < est.min_tracked_fee then est
  else
    let h := est.history ++ [fee_rate]
    { est with history := h.drop (h.length - est.max_history) }

/-- `FeeEstimator::estimate_fee_for_target`: out-of-range targets fall back;
otherwise scan the buckets in descending order (`.enumerate().rev()`) and
return the first bucket whose confirmation count at exactly `target_blocks`
is at least 5; fall back if none qualifies. -/
def FeeEstimator.estimate_fee_for_target (est : FeeEstimator) (target_blocks : Nat) : Nat :=
  if target_blocks = 0 ∨ (est.confirmations.headD []).length ≤ target_blocks then
    est.fallback_fee
  else
    match est.buckets.enum.reverse.find?
        (fun bi => 5 ≤ ((est.confirmations.getD bi.1 []).getD target_blocks 0)) with
    | some bi => bi.2
    | none => est.fallback_fee

/-! ## Mempool state and operations (`src/mempool/txmempool.rs`) -/

/-- The `Mempool` struct: entries and spends are association lists keyed by
txid / outpoint (outpoints are encoded as pairs inside the key list). -/
structure MempoolState where
  entries : List (Nat × MempoolEntry)
  policy : MempoolPolicy
  fee_estimator : FeeEstimator
  total_size : Nat
  total_fees : Nat
  current_height : Nat
  spends : List ((Nat × Nat) × Nat)
  deriving DecidableEq, Repr

/-- Outpoint-keyed lookup for the `spends` map. -/
def lookupSpend (op : Nat × Nat) : List ((Nat × Nat) × Nat) → Option Nat
  | [] => none
  | (op', v) :: rest => if op' = op then some v else lookupSpend op rest

/-- Outpoint-keyed removal for the `spends` map. -/
def eraseSpend (op : Nat × Nat) : List ((Nat × Nat) × Nat) → List ((Nat × Nat) × Nat)
  | [] => []
  | (op', v) :: rest => if op' = op then rest else (op', v) :: eraseSpend op rest

/-- Outpoint-keyed insert-or-replace for the `spends` map. -/
def insertSpend (op : Nat × Nat) (t : Nat) (m : List ((Nat × Nat) × Nat)) :
    List ((Nat × Nat) × Nat) :=
  (op, t) :: eraseSpend op m

/-- `Mempool::new`. -/
def MempoolState.new_ (policy : MempoolPolicy) : MempoolState :=
  { entries := []
    policy := policy
    fee_estimator := FeeEstimator.new_
    total_size := 0
    total_fees := 0
    current_height := 0
    spends := [] }

/-- `Mempool::find_conflicts`: for each input, the spender currently recorded
in `spends`, in input order. -/
def find_conflicts (st : MempoolState) (tx : Tx) : List Nat :=
  tx.inputs.filterMap (fun i => lookupSpend (i.prevoutTxid, i.prevoutVout) st.spends)

/-- `Mempool::find_parents`: input prevout txids that are entries, deduplicated
(a `HashSet` in the source; here a dup-free list in first-occurrence order). -/
def find_parents (st : MempoolState) (tx : Tx) : List Nat :=
  tx.inputs.foldl
    (fun acc i =>
      if (lookupA i.prevoutTxid st.entries).isSome then setInsert i.prevoutTxid acc
      else acc)
    []

/-- `Mempool::calculate_ancestors`: sum parents' ancestor aggregates. -/
def calculate_ancestors (st : MempoolState) (parents : List Nat) : Nat × Nat × Nat :=
  parents.foldl
    (fun acc p =>
      match lookupA p st.entries with
      | some pe =>
        (acc.1 + pe.ancestor_count, acc.2.1 + pe.ancestor_size, acc.2.2 + pe.ancestor_fees)
      | none => acc)
    (0, 0, 0)

/-- Worklist step of `Mempool::get_ancestors` (stack-based DFS over the
`parents` sets, collecting newly discovered ancestors); `fuel` bounds the
loop, chosen large enough for every reachable call. -/
def get_ancestors_go (st : MempoolState) :
    Nat → List Nat → List Nat → List Nat → List Nat
  | 0, _, _, ancestors => ancestors
  | _ + 1, [], _, ancestors => ancestors
  | fuel + 1, current :: to_visit, visited, ancestors =>
    if current ∈ visited then get_ancestors_go st fuel to_visit visited ancestors
    else
      let visited := visited ++ [current]
      match lookupA current st.entries with
      | some e =>
        let step := e.parents.foldl
          (fun (acc : List Nat × List Nat) p =>
            if p ∈ visited then acc else (p :: acc.1, acc.2 ++ [p]))
          (to_visit, ancestors)
        get_ancestors_go st fuel step.1 visited step.2
      | none => get_ancestors_go st fuel to_visit visited ancestors

/-- `Mempool::get_ancestors`.  The stack is modelled with `Vec::pop` at the
head; each unvisited pop pushes at most one batch of parents, so
`(n+1)*(n+1)+1` fuel (n = number of entries) can never run out. -/
def get_ancestors (st : MempoolState) (txid : Nat) : List Nat :=
  get_ancestors_go st ((st.entries.length + 1) * (st.entries.length + 1) + 1)
    [txid] [] []

/-- Per-key update performed by `Mempool::remove_tx` on the remaining entries:
the loop over the removed entry's `parents` erases it from their `children`
and decrements their descendant aggregates; the loop over its `children`
erases it from their `parents` and decrements their ancestor aggregates. -/
def remAdjust (entry : MempoolEntry) (txid : Nat) (k : Nat) (e : MempoolEntry) :
    MempoolEntry :=
  let e :=
    if k ∈ entry.parents then
      { (e.update_descendant_state (-(entry.vsize : Int)) (-(entry.fee : Int)) (-1)) with
        children := setRemove txid e.children }
    else e
  if k ∈ entry.children then
    { (e.update_ancestor_state (-(entry.vsize : Int)) (-(entry.fee : Int)) (-1)) with
      parents := setRemove txid e.parents }
  else e

/-- `Mempool::remove_tx`.  Returns the removed entry (or an error, leaving the
state untouched) together with the successor state.  The two update loops over
the removed entry's `parents` and `children` sets are embedded as the
key-conditional map `remAdjust` over the remaining entries: each loop touches
each present key at most once, and distinct-key updates commute. -/
def remove_tx (st : MempoolState) (txid : Nat) : Except MemErr MempoolEntry × MempoolState :=
  match lookupA txid st.entries with
  | none => (.error .notInMempool, st)
  | some entry =>
    let entries := eraseKey txid st.entries
    let spends := entry.tx.inputs.foldl
      (fun m i => eraseSpend (i.prevoutTxid, i.prevoutVout) m) st.spends
    let entries := entries.map (fun kv => (kv.1, remAdjust entry txid kv.1 kv.2))
    (.ok entry,
      { st with
        entries := entries
        spends := spends
        total_size := st.total_size - entry.vsize
        total_fees := st.total_fees - entry.fee })

/-- One accumulation step of the RBF conflict loop in
`Mempool::handle_replacement`: skip missing conflicts, error on a conflict
that does not signal replacement, otherwise accumulate its fee and vsize. -/
def conflict_sums_step (es : List (Nat × MempoolEntry))
    (acc : Except MemErr (Nat × Int)) (c : Nat) : Except MemErr (Nat × Int) :=
  match acc with
  | .error e => .error e
  | .ok (fees, size) =>
    match lookupA c es with
    | some ce =>
      if !ce.signals_replacement then .error .conflictingTxNoRbf
      else .ok (fees + ce.fee, size + (ce.vsize : Int))
    | none => .ok (fees, size)

/-- `Mempool::handle_replacement`: sum conflict fees/sizes (erroring on any
conflict that does not signal), run `check_rbf`, then remove every conflict. -/
def handle_replacement (st : MempoolState) (new_entry : MempoolEntry)
    (conflicts : List Nat) : Except MemErr Unit × MempoolState :=
  let sums := conflicts.foldl (conflict_sums_step st.entries) (.ok (0, 0))
  match sums with
  | .error e => (.error e, st)
  | .ok (conflict_fees, conflict_size) =>
    let fee_delta := new_entry.fee - conflict_fees
    let size_delta := (new_entry.vsize : Int) - conflict_size
    match st.policy.check_rbf new_entry.signals_replacement fee_delta size_delta with
    | .error e => (.error e, st)
    | .ok _ =>
      (.ok (), conflicts.foldl (fun s c => (remove_tx s c).2) st)

/-- Eviction loop body of `Mempool::maybe_evict`: walk the fee-rate-sorted
snapshot, stopping once enough bytes are gone. -/
def maybe_evict_go (current_size max_size : Nat) :
    List MempoolEntry → Nat → MempoolState → MempoolState
  | [], _, st => st
  | entry :: rest, evicted_size, st =>
    if current_size - evicted_size ≤ max_size then st
    else
      match remove_tx st entry.txid with
      | (.ok _, st') => maybe_evict_go current_size max_size rest (evicted_size + entry.vsize) st'
      | (.error _, st') => maybe_evict_go current_size max_size rest evicted_size st'

/-- `Mempool::maybe_evict`: when over `max_size`, evict lowest-fee-rate
entries first (stable sort ascending by `fee_rate`). -/
def maybe_evict (st : MempoolState) : MempoolState :=
  let current_size := st.total_size
  if current_size ≤ st.policy.max_size then st
  else
    let sorted := sortByLe (fun a b => a.fee_rate ≤ b.fee_rate) (st.entries.map Prod.snd)
    maybe_evict_go current_size st.policy.max_size sorted 0 st

/-- Per-key update performed by `Mempool::add_tx` on the existing entries:
each parent of the new transaction gains it as a child and has its descendant
aggregates bumped by the new entry's vsize/fee/1. -/
def addAdjust (parents : List Nat) (txid vsize fee : Nat) (k : Nat)
    (e : MempoolEntry) : MempoolEntry :=
  if k ∈ parents then
    { (e.update_descendant_state (vsize : Int) (fee : Int) 1) with
      children := setInsert txid e.children }
  else e

/-- `Mempool::add_tx`.  Returns `ok txid` or the first error; the successor
state reflects every mutation performed before the exit point (in particular,
RBF conflict removal happens before the ancestor-limit check).  The
descendant-update loop over `parents` is embedded as a key-conditional map,
as in `remove_tx`. -/
def add_tx (st : MempoolState) (tx : Tx) (fee : Nat) (height : Nat) :
    Except MemErr Nat × MempoolState :=
  let txid := tx.txid
  if (lookupA txid st.entries).isSome then (.error .alreadyInMempool, st)
  else if !(st.policy.is_size_acceptable tx.vsize) then (.error .txTooLarge, st)
  else
    let entry := MempoolEntry.mk_new tx fee height
    if !(st.policy.is_fee_acceptable entry.fee_rate) then (.error .feeRateTooLow, st)
    else
      let conflicts := find_conflicts st tx
      if conflicts ≠ [] ∧ !entry.signals_replacement then (.error .conflictNotSignaled, st)
      else
        let repl := if conflicts ≠ [] then handle_replacement st entry conflicts
                    else (.ok (), st)
        match repl with
        | (.error e, st') => (.error e, st')
        | (.ok _, st') =>
          let parents := find_parents st' tx
          let anc := calculate_ancestors st' parents
          match st'.policy.check_ancestor_limits (anc.1 + 1) (anc.2.1 + entry.vsize) with
          | .error e => (.error e, st')
          | .ok _ =>
            let entry := { entry with
              parents := parents
              ancestor_count := anc.1 + 1
              ancestor_size := anc.2.1 + entry.vsize
              ancestor_fees := anc.2.2 + entry.fee }
            let spends := tx.inputs.foldl
              (fun m i => insertSpend (i.prevoutTxid, i.prevoutVout) txid m) st'.spends
            let entries := st'.entries.map
              (fun kv => (kv.1, addAdjust parents txid entry.vsize entry.fee kv.1 kv.2))
            let st'' := { st' with
              entries := (txid, entry) :: entries
              spends := spends
              total_size := st'.total_size + entry.vsize
              total_fees := st'.total_fees + entry.fee
              fee_estimator := st'.fee_estimator.add_tx entry.fee_rate }
            (.ok txid, maybe_evict st'')

/-- `Mempool::get_block_template` selection loop. -/
def get_block_template_go (st : MempoolState) (max_weight : Nat) :
    List MempoolEntry → List Tx → List Nat → Nat → List Tx
  | [], template, _, _ => template
  | entry :: rest, template, included, current_weight =>
    if entry.txid ∈ included then
      get_block_template_go st max_weight rest template included current_weight
    else
      let tx_weight := entry.tx.weight
      if max_weight < current_weight + tx_weight then
        get_block_template_go st max_weight rest template included current_weight
      else
        let ancestors := get_ancestors st entry.txid
        let can_include := ancestors.all (fun a =>
          a ∈ included ||
            (match lookupA a st.entries with
             | some ae => decide (current_weight + ae.tx.weight ≤ max_weight)
             | none => true))
        if !can_include then
          get_block_template_go st max_weight rest template included current_weight
        else
          let step := ancestors.foldl
            (fun (acc : List Tx × List Nat × Nat) a =>
              if a ∈ acc.2.1 then acc
              else
                match lookupA a st.entries with
                | some ae => (acc.1 ++ [ae.tx], acc.2.1 ++ [a], acc.2.2 + ae.tx.weight)
                | none => acc)
            (template, included, current_weight)
          get_block_template_go st max_weight rest
            (step.1 ++ [entry.tx]) (step.2.1 ++ [entry.txid]) (step.2.2 + tx_weight)

/-- `Mempool::get_block_template`: snapshot the entries, sort by descending
`ancestor_fee_rate` (stable), then run the selection loop. -/
def get_block_template (st : MempoolState) (max_weight : Nat) : List Tx :=
  let entries := sortByLe
    (fun a b => b.ancestor_fee_rate ≤ a.ancestor_fee_rate)
    (st.entries.map Prod.snd)
  get_block_template_go st max_weight entries [] [] 0

/-- Total weight of a transaction list (for the template-size property). -/
def templateWeight (txs : List Tx) : Nat :=
  (txs.map Tx.weight).sum

/-! ## Block download scheduler (`Downloader` in `src/p2p/legacy.rs`) -/

/-- `BLK_TIMEOUT` (120 s), in seconds. -/
def BLK_TIMEOUT : Nat := 120

/-- `GLOBAL_INFLIGHT` — the global in-flight window. -/
def GLOBAL_INFLIGHT : Nat := 16

/-- `PER_PEER_INFLIGHT` — the per-peer in-flight window. -/
def PER_PEER_INFLIGHT : Nat := 4

/-- The `Downloader` struct: `inflight` maps hash to (peer, deadline instant),
`per_peer` maps peer to its in-flight count. -/
structure Downloader where
  inflight : List (Nat × Nat × Nat)
  per_peer : List (Nat × Nat)
  global_window : Nat
  per_peer_window : Nat
  queue : List Nat
  total_blocks : Nat
  downloaded_blocks : Nat
  deriving DecidableEq, Repr

/-- `Downloader::new`. -/
def Downloader.new_ (global_window per_peer_window : Nat) : Downloader :=
  { inflight := []
    per_peer := []
    global_window := global_window
    per_peer_window := per_peer_window
    queue := []
    total_blocks := 0
    downloaded_blocks := 0 }

/-- `Downloader::push_many`. -/
def Downloader.push_many (d : Downloader) (hs : List Nat) : Downloader :=
  { d with queue := d.queue ++ hs, total_blocks := d.total_blocks + hs.length }

/-- Current in-flight count for a peer (`*per_peer.get(&addr).unwrap_or(&0)`). -/
def peerCount (per_peer : List (Nat × Nat)) (addr : Nat) : Nat :=
  (lookupA addr per_peer).getD 0

/-- Assignment loop of `Downloader::poll_assign`: drain the queue while both
windows have room, inserting each drained hash into `inflight` with deadline
`now + BLK_TIMEOUT` and bumping the peer count. -/
def poll_assign_go (addr now gw pw : Nat) :
    List Nat → List (Nat × Nat × Nat) → List (Nat × Nat) → List Nat →
    List Nat × List (Nat × Nat × Nat) × List (Nat × Nat) × List Nat
  | [], inflight, per_peer, out => ([], inflight, per_peer, out)
  | h :: rest, inflight, per_peer, out =>
    if gw ≤ inflight.length then (h :: rest, inflight, per_peer, out)
    else if pw ≤ peerCount per_peer addr then (h :: rest, inflight, per_peer, out)
    else
      poll_assign_go addr now gw pw rest
        (insertA h (addr, now + BLK_TIMEOUT) inflight)
        (insertA addr (peerCount per_peer addr + 1) per_peer)
        (out ++ [h])

/-- `Downloader::poll_assign` (the clock read `Instant::now()` is the explicit
`now` argument). -/
def Downloader.poll_assign (d : Downloader) (addr now : Nat) : List Nat × Downloader :=
  let r := poll_assign_go addr now d.global_window d.per_peer_window
    d.queue d.inflight d.per_peer []
  (r.2.2.2, { d with queue := r.1, inflight := r.2.1, per_peer := r.2.2.1 })

/-- `Downloader::complete`. -/
def Downloader.complete (d : Downloader) (h : Nat) : Downloader :=
  match lookupA h d.inflight with
  | none => d
  | some (addr, _) =>
    let per_peer :=
      match lookupA addr d.per_peer with
      | some n => insertA addr (if 0 < n then n - 1 else n) d.per_peer
      | none => d.per_peer
    { d with
      inflight := eraseKey h d.inflight
      per_peer := per_peer
      downloaded_blocks := d.downloaded_blocks + 1 }

/-- `Downloader::reassign_timeouts`: drop every in-flight entry whose deadline
has passed, decrement the owning peers' counts (saturating), and return the
expired hashes. -/
def Downloader.reassign_timeouts (d : Downloader) (now : Nat) : List Nat × Downloader :=
  let expired := d.inflight.filter (fun kv => kv.2.2 ≤ now)
  let retained := d.inflight.filter (fun kv => !(kv.2.2 ≤ now))
  let per_peer := expired.foldl
    (fun pp kv =>
      match lookupA kv.2.1 pp with
      | some c => insertA kv.2.1 (c - 1) pp
      | none => pp)
    d.per_peer
  (expired.map Prod.fst, { d with inflight := retained, per_peer := per_peer })

/-- The timeout sweep of `event_loop`
(`for h in self.downloader.reassign_timeouts() { self.downloader.push_many([h]) }`):
every expired hash is re-pushed to the queue unconditionally. -/
def Downloader.timeout_sweep (d : Downloader) (now : Nat) : Downloader :=
  let r := d.reassign_timeouts now
  r.2.push_many r.1

/-- One scheduler operation, for quantifying over operation sequences. -/
inductive SchedOp where
  | push (hs : List Nat)
  | assign (addr now : Nat)
  | complete (h : Nat)
  | reassign (now : Nat)
  deriving DecidableEq, Repr

/-- Apply one scheduler operation. -/
def applySchedOp (d : Downloader) : SchedOp → Downloader
  | .push hs => d.push_many hs
  | .assign addr now => (d.poll_assign addr now).2
  | .complete h => d.complete h
  | .reassign now => (d.reassign_timeouts now).2

/-- Apply a sequence of scheduler operations. -/
def applySchedOps (ops : List SchedOp) (d : Downloader) : Downloader :=
  ops.foldl applySchedOp d

/-! ## Inventory manager (`src/p2p/inventory.rs`) -/

/-- `InvId`. -/
inductive InvId where
  | tx (t : Nat)
  | block (b : Nat)
  deriving DecidableEq, Repr

/-- `RequestState`. -/
structure RequestState where
  peer : Nat
  requested_at : Nat
  attempts : Nat
  deriving DecidableEq, Repr

/-- Generic association-list lookup (for `InvId`-keyed maps). -/
def lookupKV {α β : Type} [DecidableEq α] (k : α) : List (α × β) → Option β
  | [] => none
  | (k', v) :: rest => if k' = k then some v else lookupKV k rest

/-- Generic association-list key removal. -/
def eraseKV {α β : Type} [DecidableEq α] (k : α) : List (α × β) → List (α × β)
  | [] => []
  | (k', v) :: rest => if k' = k then rest else (k', v) :: eraseKV k rest

/-- Generic association-list insert-or-replace. -/
def insertKV {α β : Type} [DecidableEq α] (k : α) (v : β) (m : List (α × β)) :
    List (α × β) :=
  (k, v) :: eraseKV k m

/-- Generic HashSet insert on a duplicate-free list. -/
def setInsertKV {α : Type} [DecidableEq α] (x : α) (s : List α) : List α :=
  if x ∈ s then s else s ++ [x]

/-- `InventoryManager`. -/
structure InventoryManager where
  wanted : List InvId
  in_flight : List (InvId × RequestState)
  have_items : List InvId
  announced : List (InvId × List Nat)
  request_timeout : Nat
  max_per_peer : Nat
  max_in_flight : Nat
  deriving DecidableEq, Repr

/-- `InventoryManager::new`: 120 s timeout, 16 per peer, 256 total. -/
def InventoryManager.new_ : InventoryManager :=
  { wanted := []
    in_flight := []
    have_items := []
    announced := []
    request_timeout := 120
    max_per_peer := 16
    max_in_flight := 256 }

/-- `InventoryManager::announce`. -/
def InventoryManager.announce (m : InventoryManager) (id : InvId) (peer : Nat) :
    InventoryManager :=
  let anns := setInsertKV peer ((lookupKV id m.announced).getD [])
  let m := { m with announced := insertKV id anns m.announced }
  if id ∈ m.have_items then m else { m with wanted := setInsertKV id m.wanted }

/-- Selection loop of `InventoryManager::get_requests`: walk `wanted`,
stopping at either capacity bound, keeping ids this peer has announced. -/
def get_requests_go (m : InventoryManager) (peer current_peer_requests : Nat) :
    List InvId → List InvId → List InvId
  | [], requests => requests
  | id :: rest, requests =>
    if m.max_per_peer - current_peer_requests ≤ requests.length then requests
    else if m.max_in_flight ≤ m.in_flight.length + requests.length then requests
    else if peer ∈ (lookupKV id m.announced).getD [] then
      get_requests_go m peer current_peer_requests rest (requests ++ [id])
    else
      get_requests_go m peer current_peer_requests rest requests

/-- `InventoryManager::get_requests`: capacity checks, selection, then each
selected id moves from `wanted` to `in_flight` with `attempts = 1` (the clock
read `SystemTime::now()` is the explicit `now` argument). -/
def InventoryManager.get_requests (m : InventoryManager) (peer now : Nat) :
    List InvId × InventoryManager :=
  if m.max_in_flight ≤ m.in_flight.length then ([], m)
  else
    let current_peer_requests :=
      (m.in_flight.filter (fun kv => kv.2.peer = peer)).length
    if m.max_per_peer ≤ current_peer_requests then ([], m)
    else
      let requests := get_requests_go m peer current_peer_requests m.wanted []
      let wanted := requests.foldl (fun w id => w.erase id) m.wanted
      let in_flight := requests.foldl
        (fun fl id =>
          insertKV id { peer := peer, requested_at := now, attempts := 1 } fl)
        m.in_flight
      (requests, { m with wanted := wanted, in_flight := in_flight })

/-- `InventoryManager::check_timeouts`: remove timed-out in-flight entries;
re-add to `wanted` only those with `attempts < 3`; return the wanted list. -/
def InventoryManager.check_timeouts (m : InventoryManager) (now : Nat) :
    List InvId × InventoryManager :=
  let timed_out := m.in_flight.filter
    (fun kv => kv.2.requested_at ≤ now ∧ m.request_timeout < now - kv.2.requested_at)
  let in_flight := m.in_flight.filter
    (fun kv => !(kv.2.requested_at ≤ now ∧ m.request_timeout < now - kv.2.requested_at))
  let wanted := timed_out.foldl
    (fun w kv => if kv.2.attempts < 3 then setInsertKV kv.1 w else w)
    m.wanted
  (wanted, { m with wanted := wanted, in_flight := in_flight })

/-! ## Headers-first sync engine (`PeerManager` in `src/p2p/legacy.rs`) -/

/-- An 80-byte block header, abstracted to the two fields the sync engine
reads: `prev_blockhash` and the value `block_hash()` computes. -/
structure BlockHeader where
  prev : Nat
  hashv : Nat
  deriving DecidableEq, Repr

/-- The `PeerManager` fields touched by header sync (peer sessions reduced to
their addresses; `chain_params.checkpoints` as a height-keyed list, which
`get_checkpoint` scans for the first match). -/
structure ManagerState where
  downloader : Downloader
  prev_map : List (Nat × Nat)
  have_header : List Nat
  best_header_tip : Nat
  recent_chain : List Nat
  start_height : Int
  headers_synced : Bool
  best_known_height : Int
  header_chain_height : Int
  header_chain : List BlockHeader
  sync_peer : Option Nat
  peers : List Nat
  checkpoints : List (Nat × Nat)
  deriving DecidableEq, Repr

/-- `*self.recent_chain.last().unwrap()` (the chain always holds genesis). -/
def currentTipOf (st : ManagerState) : Nat :=
  (st.recent_chain.getLast?).getD 0

/-- The per-header mutation block of `extend_headers` (insert into `prev_map`
and `have_header`, push to `recent_chain` and `header_chain`, bump height). -/
def apply_header (st : ManagerState) (hh : BlockHeader) : ManagerState :=
  { st with
    prev_map := insertA hh.hashv hh.prev st.prev_map
    have_header := setInsert hh.hashv st.have_header
    recent_chain := st.recent_chain ++ [hh.hashv]
    header_chain := st.header_chain ++ [hh]
    header_chain_height := st.header_chain_height + 1 }

/-- The header-batch loop of `extend_headers`: skip duplicates (advancing the
cursor), stop on a chain break, stop on a checkpoint mismatch at the next
height, otherwise apply the header and count it. -/
def extend_headers_go : ManagerState → Nat → List BlockHeader → Nat → Nat × ManagerState
  | st, _, [], added => (added, st)
  | st, tip, hh :: rest, added =>
    if hh.hashv ∈ st.have_header then extend_headers_go st hh.hashv rest added
    else if hh.prev ≠ tip then (added, st)
    else
      let next_height := (st.header_chain_height + 1).toNat
      match lookupA next_height st.checkpoints with
      | some cp =>
        if hh.hashv ≠ cp then (added, st)
        else extend_headers_go (apply_header st hh) hh.hashv rest (added + 1)
      | none => extend_headers_go (apply_header st hh) hh.hashv rest (added + 1)

/-- `PeerManager::extend_headers`: returns the number of headers added and the
successor state; finally refreshes `best_header_tip` from `recent_chain`. -/
def extend_headers (st : ManagerState) (new_headers : List BlockHeader) :
    Nat × ManagerState :=
  if new_headers = [] then (0, st)
  else
    match extend_headers_go st (currentTipOf st) new_headers 0 with
    | (added, st') =>
      (added, { st' with
                best_header_tip := (st'.recent_chain.getLast?).getD st'.best_header_tip })

/-- `PeerManager::queue_blocks_from_headers`: queue `recent_chain` entries
above `start_height` (`skip((start_height as usize) + 1)`). -/
def queue_blocks_from_headers (st : ManagerState) : ManagerState :=
  let skip_count := st.start_height.toNat + 1
  let blocks := st.recent_chain.drop skip_count
  if blocks = [] then st
  else { st with downloader := st.downloader.push_many blocks }

/-- `PeerManager::check_headers_sync_complete`: once
`best_known_height > 0 && header_chain_height >= best_known_height - 144`,
mark synced and queue the block downloads. -/
def check_headers_sync_complete (st : ManagerState) : ManagerState :=
  if st.headers_synced then st
  else if 0 < st.best_known_height ∧
      st.best_known_height - 144 ≤ st.header_chain_height then
    queue_blocks_from_headers { st with headers_synced := true }
  else st

/-! ## Block locator (`PeerManager::build_locator`)

The source reads `recent_chain` only through `len()`, indexing, and element 0;
the vector is therefore embedded as its length `chain_len` plus its index
function `chain_at` (so locators over multi-million-entry chains stay
computable). -/

/-- The locator loop: push `chain_at idx`, stop at 32 hashes or at index 0,
double the step once 10 hashes are collected, walk back by `step`
(saturating).  `fuel` starts at 32, enough for the length-bounded loop. -/
def build_locator_go (chain_at : Nat → Nat) :
    Nat → Nat → Nat → List Nat → List Nat
  | 0, _, _, loc => loc
  | fuel + 1, step, idx, loc =>
    if loc.length < 32 then
      let loc := loc ++ [chain_at idx]
      if idx = 0 then loc
      else
        let step := if 10 ≤ loc.length then step * 2 else step
        build_locator_go chain_at fuel step (idx - step) loc
    else loc

/-- `PeerManager::build_locator`: run the loop from the chain tip, then append
the genesis hash (`chain_at 0`) unless it is already last. -/
def build_locator (chain_len : Nat) (chain_at : Nat → Nat) : List Nat :=
  let loc := build_locator_go chain_at 32 1 (chain_len - 1) []
  if loc.getLast? ≠ some (chain_at 0) then loc ++ [chain_at 0] else loc

/-! ## Mempool operation sequences and closure aggregates (claim side) -/

/-- One public mempool operation. -/
inductive MempoolOp where
  | add (tx : Tx) (fee height : Nat)
  | remove (t : Nat)
  deriving DecidableEq, Repr

/-- Apply one mempool operation (keeping the successor state). -/
def applyMempoolOp (st : MempoolState) : MempoolOp → MempoolState
  | .add tx fee height => (add_tx st tx fee height).2
  | .remove t => (remove_tx st t).2

/-- Apply a sequence of mempool operations. -/
def applyMempoolOps (ops : List MempoolOp) (st : MempoolState) : MempoolState :=
  ops.foldl applyMempoolOp st

/-- Generic worklist closure over a successor relation (used to state the
claimed transitive-closure aggregate invariant). -/
def closureRelGo (next : Nat → List Nat) : Nat → List Nat → List Nat → List Nat
  | 0, _, visited => visited
  | _ + 1, [], visited => visited
  | fuel + 1, x :: stack, visited =>
    if x ∈ visited then closureRelGo next fuel stack visited
    else closureRelGo next fuel (next x ++ stack) (visited ++ [x])

/-- Transitive-closure ancestors of an entry: every txid reachable through
`parents` links, excluding the entry itself. -/
def spec_ancestors (es : List (Nat × MempoolEntry)) (t : Nat) : List Nat :=
  (closureRelGo (fun x => (lookupA x es).elim [] (·.parents))
    ((es.length + 1) * (es.length + 1) + 1) [t] []).erase t

/-- Transitive-closure descendants of an entry: every txid reachable through
`children` links, excluding the entry itself. -/
def spec_descendants (es : List (Nat × MempoolEntry)) (t : Nat) : List Nat :=
  (closureRelGo (fun x => (lookupA x es).elim [] (·.children))
    ((es.length + 1) * (es.length + 1) + 1) [t] []).erase t

/-- Sum of the vsizes of the (present) entries named by a txid list. -/
def vsizeSumOf (es : List (Nat × MempoolEntry)) (ts : List Nat) : Nat :=
  (ts.map (fun c => ((lookupA c es).elim 0 (·.vsize)))).sum

/-- Sum of the fees of the (present) entries named by a txid list. -/
def feeSumOf (es : List (Nat × MempoolEntry)) (ts : List Nat) : Nat :=
  (ts.map (fun c => ((lookupA c es).elim 0 (·.fee)))).sum

/-- The claimed aggregate invariant (spec §5 ordering guarantee 4 / testable
property 4): every entry's ancestor aggregates are the sums over its
transitive-closure ancestors plus itself, and dually for descendants. -/
def aggregates_closure_invariant (st : MempoolState) : Prop :=
  ∀ t e, lookupA t st.entries = some e →
    e.ancestor_count = 1 + (spec_ancestors st.entries t).length ∧
    e.ancestor_size = e.vsize + vsizeSumOf st.entries (spec_ancestors st.entries t) ∧
    e.ancestor_fees = e.fee + feeSumOf st.entries (spec_ancestors st.entries t) ∧
    e.descendant_count = 1 + (spec_descendants st.entries t).length ∧
    e.descendant_size = e.vsize + vsizeSumOf st.entries (spec_descendants st.entries t) ∧
    e.descendant_fees = e.fee + feeSumOf st.entries (spec_descendants st.entries t)

/-- The aggregate form the code actually maintains for descendants: every
entry's descendant aggregates equal itself plus the sums over its direct
children only. -/
def desc_local_invariant (es : List (Nat × MempoolEntry)) : Prop :=
  ∀ t e, lookupA t es = some e →
    e.descendant_count = 1 + e.children.length ∧
    e.descendant_size = e.vsize + vsizeSumOf es e.children ∧
    e.descendant_fees = e.fee + feeSumOf es e.children

/-- Decidable equality for results, so concrete runs can be checked by
evaluation. -/
instance {α β : Type} [DecidableEq α] [DecidableEq β] : DecidableEq (Except α β) :=
  fun a b =>
    match a, b with
    | .ok x, .ok y => if h : x = y then .isTrue (by rw [h]) else .isFalse (by simp [h])
    | .error x, .error y => if h : x = y then .isTrue (by rw [h]) else .isFalse (by simp [h])
    | .ok _, .error _ => .isFalse (by simp)
    | .error _, .ok _ => .isFalse (by simp)

/-- Sum of the fees of the (present) conflicting entries (the quantity the
RBF loop of `handle_replacement` accumulates). -/
def conflictFeeSum (es : List (Nat × MempoolEntry)) (cs : List Nat) : Nat :=
  (cs.map (fun c => ((lookupA c es).elim 0 (·.fee)))).sum

/-- Sum of the vsizes of the (present) conflicting entries, as an `i64`. -/
def conflictSizeSum (es : List (Nat × MempoolEntry)) (cs : List Nat) : Int :=
  (cs.map (fun c => ((lookupA c es).elim 0 (fun e => (e.vsize : Int))))).sum

/-- Bucket `i` qualifies for `target`: its confirmation count at exactly the
target index is at least the sample threshold 5. -/
def bucketQualifies (est : FeeEstimator) (target_blocks i : Nat) : Prop :=
  5 ≤ (est.confirmations.getD i []).getD target_blocks 0

instance (est : FeeEstimator) (t i : Nat) : Decidable (bucketQualifies est t i) :=
  inferInstanceAs (Decidable (5 ≤ _))

/-- The inductive well-formedness the mempool operations actually maintain:
unique keys, accurate txids, duplicate-free parent/child sets whose members
are live entries with matching back-pointers, and descendant aggregates equal
to self plus the direct-children sums. -/
structure MemInv (es : List (Nat × MempoolEntry)) : Prop where
  keysNodup : (es.map Prod.fst).Nodup
  txidEq : ∀ t e, lookupA t es = some e → e.txid = t
  parNodup : ∀ t e, lookupA t es = some e → e.parents.Nodup
  chNodup : ∀ t e, lookupA t es = some e → e.children.Nodup
  chBack : ∀ t e, lookupA t es = some e → ∀ c ∈ e.children,
    c ≠ t ∧ ∃ ce, lookupA c es = some ce ∧ t ∈ ce.parents
  parBack : ∀ t e, lookupA t es = some e → ∀ p ∈ e.parents,
    p ≠ t ∧ ∃ pe, lookupA p es = some pe ∧ t ∈ pe.children
  descCount : ∀ t e, lookupA t es = some e →
    e.descendant_count = 1 + e.children.length
  descSize : ∀ t e, lookupA t es = some e →
    e.descendant_size = e.vsize + vsizeSumOf es e.children
  descFees : ∀ t e, lookupA t es = some e →
    e.descendant_fees = e.fee + feeSumOf es e.children

/-- Claim-side reading of `estimate_fee(target)` (spec §4.J): the smallest
bucket fee whose confirmation counts at or below the target sum to more than
the sample threshold of 5, with the same fallback conditions. -/
def spec_estimate_smallest (est : FeeEstimator) (target_blocks : Nat) : Nat :=
  if target_blocks = 0 ∨ (est.confirmations.headD []).length ≤ target_blocks then
    est.fallback_fee
  else
    match est.buckets.enum.find?
        (fun bi =>
          5 < (((List.range (target_blocks + 1)).map
            (fun k => (est.confirmations.getD bi.1 []).getD k 0)).sum)) with
    | some bi => bi.2
    | none => est.fallback_fee

/-! ## Concrete states used by the boundary and counterexample theorems -/

/-- Chain root A of the ancestor-propagation scenario (fee 500, vsize 100). -/
def txA : Tx := { txid := 1, inputs := [⟨100, 0, 0xffffffff⟩], vsize := 100, weight := 400 }

/-- B spends A's output (fee 700, vsize 140). -/
def txB : Tx := { txid := 2, inputs := [⟨1, 0, 0xffffffff⟩], vsize := 140, weight := 560 }

/-- C spends B's output (fee 900, vsize 180). -/
def txC : Tx := { txid := 3, inputs := [⟨2, 0, 0xffffffff⟩], vsize := 180, weight := 720 }

/-- The mempool after adding the chain A ← B ← C. -/
def st3 : MempoolState :=
  applyMempoolOps [.add txA 500 0, .add txB 700 0, .add txC 900 0]
    (MempoolState.new_ MempoolPolicy.default_)

/-- Parentless transaction of weight 8 with a low ancestor fee rate. -/
def txA5 : Tx := { txid := 1, inputs := [⟨500, 0, 0xffffffff⟩], vsize := 2, weight := 8 }

/-- Child of `txA5` of weight 8 with a high ancestor fee rate. -/
def txB5 : Tx := { txid := 2, inputs := [⟨1, 0, 0xffffffff⟩], vsize := 2, weight := 8 }

/-- Mempool holding the two-transaction chain `txA5 ← txB5`. -/
def st5 : MempoolState :=
  applyMempoolOps [.add txA5 2 0, .add txB5 100 0] (MempoolState.new_ MempoolPolicy.default_)

/-- Two independent (parentless) transactions, for the amended template bound. -/
def txI1 : Tx := { txid := 1, inputs := [⟨500, 0, 0xffffffff⟩], vsize := 2, weight := 8 }

/-- Second independent transaction. -/
def txI2 : Tx := { txid := 2, inputs := [⟨501, 0, 0xffffffff⟩], vsize := 2, weight := 8 }

/-- Mempool holding only parentless transactions. -/
def stIndep : MempoolState :=
  applyMempoolOps [.add txI1 2 0, .add txI2 100 0] (MempoolState.new_ MempoolPolicy.default_)

/-- Element `k` (1-based) of a 25-deep spending chain (each spends its
predecessor; vsize 100). -/
def chainTx (k : Nat) : Tx :=
  if k = 1 then { txid := 1, inputs := [⟨900, 0, 0xffffffff⟩], vsize := 100, weight := 400 }
  else { txid := k, inputs := [⟨k - 1, 0, 0xffffffff⟩], vsize := 100, weight := 400 }

/-- RBF-signalling transaction spending outpoint (999, 0). -/
def txX : Tx := { txid := 50, inputs := [⟨999, 0, 0⟩], vsize := 100, weight := 400 }

/-- Replacement of `txX` that is also a child of the 25-deep chain tip. -/
def txN : Tx := { txid := 51, inputs := [⟨25, 0, 0⟩, ⟨999, 0, 0⟩], vsize := 100, weight := 400 }

/-- Mempool holding the 25-deep chain plus `txX`. -/
def st10 : MempoolState :=
  applyMempoolOps
    ((List.range 25).map (fun i => .add (chainTx (i + 1)) 100 0) ++ [.add txX 100 0])
    (MempoolState.new_ MempoolPolicy.default_)

/-- RBF-signalling transaction (fee 1000, vsize 250) spending outpoint (7, 0). -/
def txT1 : Tx := { txid := 10, inputs := [⟨7, 0, 0xfffffffd⟩], vsize := 250, weight := 1000 }

/-- Replacement candidate (fee 2000, vsize 250) for `txT1`. -/
def txT2 : Tx := { txid := 11, inputs := [⟨7, 0, 0xfffffffd⟩], vsize := 250, weight := 1000 }

/-- Mempool holding just `txT1`. -/
def stRbf : MempoolState :=
  applyMempoolOps [.add txT1 1000 0] (MempoolState.new_ MempoolPolicy.default_)

/-- Sync engine at genesis with a checkpoint at height 2 whose hash is 555,
sync peer 1 and peer set {1, 2}. -/
def mgr0 : ManagerState :=
  { downloader := Downloader.new_ GLOBAL_INFLIGHT PER_PEER_INFLIGHT
    prev_map := []
    have_header := [0]
    best_header_tip := 0
    recent_chain := [0]
    start_height := 0
    headers_synced := false
    best_known_height := 1000
    header_chain_height := 0
    header_chain := []
    sync_peer := some 1
    peers := [1, 2]
    checkpoints := [(2, 555)] }

/-- Two-header batch whose second header lands on the height-2 checkpoint with
the wrong hash (11 instead of 555). -/
def cpBatch : List BlockHeader := [⟨0, 10⟩, ⟨10, 11⟩]

/-- Sync engine already at height 1 (tip hash 10), one step below the
checkpoint at height 2. -/
def mgrCp1 : ManagerState :=
  { mgr0 with
    header_chain_height := 1
    recent_chain := [0, 10]
    have_header := [0, 10]
    best_header_tip := 10 }

/-- Sync engine with best known height 1000 and header chain height 856. -/
def mgr856 : ManagerState := { mgr0 with header_chain_height := 856, checkpoints := [] }

/-- Sync engine with best known height 1000 and header chain height 855. -/
def mgr855 : ManagerState := { mgr0 with header_chain_height := 855, checkpoints := [] }

/-- Confirmation matrix with ten height-3 confirmations in buckets 1 (fee 2)
and 8 (fee 100), zero elsewhere. -/
def conf1 : List (List Nat) :=
  (List.range 13).map (fun i =>
    if i = 1 ∨ i = 8 then (List.range 25).map (fun j => if j = 3 then 10 else 0)
    else List.replicate 25 0)

/-- Fee estimator whose confirmation matrix is `conf1`. -/
def estC : FeeEstimator := { FeeEstimator.new_ with confirmations := conf1 }

/-- Inventory manager with block 5 announced by peer 9. -/
def inv0 : InventoryManager := InventoryManager.new_.announce (.block 5) 9

/-- One request/timeout round against peer 9: request at time `t`, then sweep
at `t + 121` (past the 120 s timeout). -/
def invCycle (m : InventoryManager) (t : Nat) : InventoryManager :=
  ((m.get_requests 9 t).2.check_timeouts (t + 121)).2

/-- Inventory manager after four full timeout rounds for block 5. -/
def inv4 : InventoryManager :=
  invCycle (invCycle (invCycle (invCycle inv0 0) 121) 242) 363

/-- Fresh downloader with hash 5 queued and assigned to peer 9 at time 0. -/
def dl1 : Downloader :=
  (((Downloader.new_ 16 4).push_many [5]).poll_assign 9 0).2

/-! ## Theorems -/

/-- C1 (counterexample): after the add-only operation sequence building the
chain A ← B ← C, the root's `descendant_count` is 2, but its transitive
descendant closure is {B, C}, so the claimed closure invariant demands 3. -/
theorem C1_counterexample : ¬ aggregates_closure_invariant st3 := by
  intro h
  have hs : (lookupA 1 st3.entries).isSome = true := by decide
  obtain ⟨e, he⟩ := Option.isSome_iff_exists.mp hs
  have honly := (h 1 e he).2.2.2.1
  have hdc : (lookupA 1 st3.entries).elim 0 MempoolEntry.descendant_count = 2 := by decide
  rw [he] at hdc
  simp only [Option.elim] at hdc
  have hlen : (spec_descendants st3.entries 1).length = 2 := by decide
  rw [hdc, hlen] at honly
  exact absurd honly (by decide)

/-- C2 (counterexample): on the two-header batch whose second header
mismatches the checkpoint at height 2, `extend_headers` still applies the
first header (`header_chain_height` goes 0 → 1) and leaves both the sync peer
and the peer set untouched — the batch is not rejected wholesale and the peer
is not dropped. -/
theorem C2_counterexample :
    mgr0.header_chain_height = 0 ∧
    (extend_headers mgr0 cpBatch).2.header_chain_height = 1 ∧
    (extend_headers mgr0 cpBatch).2.sync_peer = some 1 ∧
    (extend_headers mgr0 cpBatch).2.peers = [1, 2] := by decide

/-- C3 (counterexample): with `best_known_height = 1000` and
`header_chain_height = 856`, the engine declares headers sync complete
(856 ≥ 1000 − 144), contradicting the claim that 856 is not complete. -/
theorem C3_counterexample :
    mgr856.best_known_height = 1000 ∧ mgr856.header_chain_height = 856 ∧
    mgr856.headers_synced = false ∧
    (check_headers_sync_complete mgr856).headers_synced = true := by decide

/-- Queueing block downloads does not change the `headers_synced` flag. -/
theorem queue_blocks_headers_synced (st : ManagerState) :
    (queue_blocks_from_headers st).headers_synced = st.headers_synced := by
  unfold queue_blocks_from_headers
  dsimp only
  split <;> rfl

/-- C3 (amended): headers sync is declared complete exactly per the predicate
`best_known_height > 0 ∧ header_chain_height ≥ best_known_height − 144`; at
`best_known_height = 1000` the boundary is 855 (not complete) / 856
(complete), not 856 / 857. -/
theorem C3_sync_threshold :
    (∀ st : ManagerState, st.headers_synced = false →
      ((check_headers_sync_complete st).headers_synced = true ↔
        (0 < st.best_known_height ∧
          st.best_known_height - 144 ≤ st.header_chain_height))) ∧
    (check_headers_sync_complete mgr855).headers_synced = false ∧
    (check_headers_sync_complete mgr856).headers_synced = true := by
  refine ⟨?_, by decide, by decide⟩
  intro st hns
  unfold check_headers_sync_complete
  rw [if_neg (by simp [hns])]
  by_cases hc : 0 < st.best_known_height ∧
      st.best_known_height - 144 ≤ st.header_chain_height
  · rw [if_pos hc]
    rw [queue_blocks_headers_synced]
    constructor
    · intro _; exact hc
    · intro _; rfl
  · rw [if_neg hc]
    simp only [hns, Bool.false_eq_true, false_iff]
    exact hc

/-- C3 witness: the completion predicate applied at the concrete boundary
state with `best_known_height = 1000`, `header_chain_height = 856`. -/
theorem C3_sync_threshold_witness :
    (check_headers_sync_complete mgr856).headers_synced = true :=
  (C3_sync_threshold.1 mgr856 (by decide)).mpr (by decide)

/-- C4 (counterexample): with ten recorded confirmations at target 3 in both
the 2 sat/vB and the 100 sat/vB buckets, `estimate_fee_for_target` returns
100 — the largest qualifying bucket — while the claimed smallest qualifying
bucket fee is 2. -/
theorem C4_counterexample :
    FeeEstimator.estimate_fee_for_target estC 3 = 100 ∧
    spec_estimate_smallest estC 3 = 2 ∧ (100 : Nat) ≠ 2 := by decide

/-- C5 (counterexample): on the reachable two-transaction chain `st5` with
`max_weight = 12`, the high-ancestor-fee-rate child pulls in its parent after
a non-accumulating pre-check, and the returned template weighs 16 > 12. -/
theorem C5_counterexample :
    templateWeight (get_block_template st5 12) = 16 ∧
    ¬ templateWeight (get_block_template st5 12) ≤ 12 := by decide

/-- C6: the retry cap does not exist in the code.  After four full
request/timeout rounds, block 5 is still wanted, is re-requested a fifth time,
and its recorded `attempts` is still 1 (`get_requests` always inserts
`attempts = 1` and nothing ever increments it, so the `attempts < 3` check in
`check_timeouts` never drops a hash); the event-loop sweep over
`Downloader::reassign_timeouts` likewise re-queues every expired hash
unconditionally. -/
theorem C6_retry_unbounded :
    inv4.wanted = [.block 5] ∧
    (inv4.get_requests 9 500).1 = [.block 5] ∧
    lookupKV (InvId.block 5) (inv4.get_requests 9 500).2.in_flight =
      some { peer := 9, requested_at := 500, attempts := 1 } ∧
    (dl1.timeout_sweep 120).queue = [5] := by decide

/-- Folding the RBF conflict loop from an error keeps the error. -/
theorem conflict_sums_foldl_error (es : List (Nat × MempoolEntry))
    (cs : List Nat) (e : MemErr) :
    cs.foldl (conflict_sums_step es) (.error e) = .error e := by
  induction cs with
  | nil => rfl
  | cons c rest ih => simpa [conflict_sums_step] using ih

/-- If the RBF conflict loop succeeds, the accumulated fee/size are the sums
over the present conflicting entries, and every present conflicting entry
signals replacement. -/
theorem conflict_sums_foldl_ok (es : List (Nat × MempoolEntry)) :
    ∀ (cs : List Nat) (f : Nat) (s : Int) (F : Nat) (S : Int),
      cs.foldl (conflict_sums_step es) (.ok (f, s)) = .ok (F, S) →
      F = f + conflictFeeSum es cs ∧ S = s + conflictSizeSum es cs ∧
      ∀ c ∈ cs, ∀ ce, lookupA c es = some ce → ce.signals_replacement = true := by
  intro cs
  induction cs with
  | nil =>
    intro f s F S h
    simp only [List.foldl_nil, Except.ok.injEq, Prod.mk.injEq] at h
    refine ⟨?_, ?_, by simp⟩
    · simp [← h.1, conflictFeeSum]
    · simp [← h.2, conflictSizeSum]
  | cons c rest ih =>
    intro f s F S h
    rw [List.foldl_cons] at h
    cases hl : lookupA c es with
    | none =>
      rw [show conflict_sums_step es (.ok (f, s)) c = .ok (f, s) by
        simp [conflict_sums_step, hl]] at h
      obtain ⟨hF, hS, hsig⟩ := ih f s F S h
      refine ⟨?_, ?_, ?_⟩
      · simp [hF, conflictFeeSum, hl]
      · simp [hS, conflictSizeSum, hl]
      · intro c' hc' ce hce
        rcases List.mem_cons.mp hc' with rfl | hmem
        · rw [hl] at hce; cases hce
        · exact hsig c' hmem ce hce
    | some ce =>
      cases hsg : ce.signals_replacement with
      | false =>
        rw [show conflict_sums_step es (.ok (f, s)) c = .error .conflictingTxNoRbf by
          simp [conflict_sums_step, hl, hsg]] at h
        rw [conflict_sums_foldl_error] at h
        cases h
      | true =>
        rw [show conflict_sums_step es (.ok (f, s)) c =
            .ok (f + ce.fee, s + (ce.vsize : Int)) by
          simp [conflict_sums_step, hl, hsg]] at h
        obtain ⟨hF, hS, hsig⟩ := ih (f + ce.fee) (s + (ce.vsize : Int)) F S h
        refine ⟨?_, ?_, ?_⟩
        · simp [hF, conflictFeeSum, hl]; ring
        · simp [hS, conflictSizeSum, hl]; ring
        · intro c' hc' ce' hce'
          rcases List.mem_cons.mp hc' with rfl | hmem
          · rw [hl] at hce'; cases hce'; exact hsg
          · exact hsig c' hmem ce' hce'

/-- A successful `check_rbf` implies the signal flag and the incremental-fee
threshold. -/
theorem check_rbf_ok_implies (p : MempoolPolicy) (sig : Bool) (fd : Nat) (sd : Int)
    (h : p.check_rbf sig fd sd = .ok ()) :
    sig = true ∧ p.incremental_relay_fee * sd.natAbs ≤ fd := by
  unfold MempoolPolicy.check_rbf at h
  dsimp only at h
  split at h
  · cases h
  · split at h
    · cases h
    · split at h
      · cases h
      · refine ⟨?_, by omega⟩
        rename_i hsig _
        simpa using hsig

/-- A successful `handle_replacement` implies that every present conflicting
entry signals replacement and that the fee delta meets the incremental-fee
threshold. -/
theorem handle_replacement_ok_implies (st : MempoolState) (ne : MempoolEntry)
    (cs : List Nat) (u : Unit) (st' : MempoolState)
    (h : handle_replacement st ne cs = (.ok u, st')) :
    (∀ c ∈ cs, ∀ ce, lookupA c st.entries = some ce →
        ce.signals_replacement = true) ∧
    st.policy.incremental_relay_fee *
        ((ne.vsize : Int) - conflictSizeSum st.entries cs).natAbs
      ≤ ne.fee - conflictFeeSum st.entries cs := by
  unfold handle_replacement at h
  dsimp only at h
  cases hs : cs.foldl (conflict_sums_step st.entries) (.ok (0, 0)) with
  | error e => rw [hs] at h; cases h
  | ok fs =>
    obtain ⟨F, S⟩ := fs
    rw [hs] at h
    obtain ⟨hF, hS, hsig⟩ := conflict_sums_foldl_ok st.entries cs 0 0 F S hs
    dsimp only at h
    cases hc : st.policy.check_rbf ne.signals_replacement (ne.fee - F)
        ((ne.vsize : Int) - S) with
    | error e => rw [hc] at h; cases h
    | ok u' =>
      cases u'
      have hth := check_rbf_ok_implies _ _ _ _ hc
      refine ⟨hsig, ?_⟩
      have hF' : F = conflictFeeSum st.entries cs := by omega
      have hS' : S = conflictSizeSum st.entries cs := by omega
      rw [hF', hS'] at hth
      exact hth.2

/-- C7: RBF acceptance threshold.  If `add_tx` succeeds while its transaction
conflicts with existing entries, then every present conflicting entry signals
replacement and `fee − Σ conflict fees` (saturating) is at least
`incremental_relay_fee × |vsize − Σ conflict vsizes|`; at the boundary with
the default policy (1 sat/vB) and `size_delta = 100`, `fee_delta = 99` is
rejected and `fee_delta = 100` is accepted. -/
theorem C7_rbf_acceptance :
    (∀ (st : MempoolState) (tx : Tx) (fee height t : Nat),
        (add_tx st tx fee height).1 = .ok t →
        find_conflicts st tx ≠ [] →
        (∀ c ∈ find_conflicts st tx, ∀ ce, lookupA c st.entries = some ce →
            ce.signals_replacement = true) ∧
        st.policy.incremental_relay_fee *
            ((tx.vsize : Int) -
              conflictSizeSum st.entries (find_conflicts st tx)).natAbs
          ≤ fee - conflictFeeSum st.entries (find_conflicts st tx)) ∧
    MempoolPolicy.default_.check_rbf true 99 100 = .error .insufficientFeeBump ∧
    MempoolPolicy.default_.check_rbf true 100 100 = .ok () := by
  refine ⟨?_, by decide, by decide⟩
  intro st tx fee height t h hconf
  unfold add_tx at h
  dsimp only at h
  split at h
  · simp at h
  · split at h
    · simp at h
    · split at h
      · simp at h
      · split at h
        · simp at h
        · split at h
          · simp at h
          · rename_i u st' heq
            exact handle_replacement_ok_implies st
              (MempoolEntry.mk_new tx fee height) (find_conflicts st tx) u st' heq

/-- C7 witness: on the reachable one-entry mempool `stRbf`, the replacement
`txT2` is accepted with a non-empty conflict set, and the theorem's
conclusions hold there. -/
theorem C7_witness :
    (add_tx stRbf txT2 2000 0).1 = .ok 11 ∧
    find_conflicts stRbf txT2 ≠ [] ∧
    ((∀ c ∈ find_conflicts stRbf txT2, ∀ ce, lookupA c stRbf.entries = some ce →
        ce.signals_replacement = true) ∧
      stRbf.policy.incremental_relay_fee *
          ((txT2.vsize : Int) -
            conflictSizeSum stRbf.entries (find_conflicts stRbf txT2)).natAbs
        ≤ 2000 - conflictFeeSum stRbf.entries (find_conflicts stRbf txT2)) :=
  ⟨by decide, by decide,
    C7_rbf_acceptance.1 stRbf txT2 2000 0 11 (by decide) (by decide)⟩

/-- The header-batch loop never changes the sync peer or the peer set. -/
theorem extend_headers_go_peers :
    ∀ (hs : List BlockHeader) (st : ManagerState) (tip added : Nat),
      (extend_headers_go st tip hs added).2.sync_peer = st.sync_peer ∧
      (extend_headers_go st tip hs added).2.peers = st.peers := by
  intro hs
  induction hs with
  | nil => intro st tip added; exact ⟨rfl, rfl⟩
  | cons hh rest ih =>
    intro st tip added
    unfold extend_headers_go
    split
    · exact ih st hh.hashv added
    · split
      · exact ⟨rfl, rfl⟩
      · dsimp only
        split
        · split
          · exact ⟨rfl, rfl⟩
          · exact ih (apply_header st hh) hh.hashv (added + 1)
        · exact ih (apply_header st hh) hh.hashv (added + 1)

/-- C2 (amended): `extend_headers` never drops the sync peer or any peer; on a
checkpoint mismatch it stops the batch at the offending header, so headers
earlier in the batch stay applied — and when the first new header of the
batch is the mismatching one, the whole state is unchanged and zero headers
are added. -/
theorem C2_checkpoint_stop :
    (∀ (st : ManagerState) (hs : List BlockHeader),
        (extend_headers st hs).2.sync_peer = st.sync_peer ∧
        (extend_headers st hs).2.peers = st.peers) ∧
    (∀ (st : ManagerState) (h : BlockHeader) (rest : List BlockHeader) (cp : Nat),
        st.best_header_tip = currentTipOf st →
        h.hashv ∉ st.have_header →
        h.prev = currentTipOf st →
        lookupA (st.header_chain_height + 1).toNat st.checkpoints = some cp →
        h.hashv ≠ cp →
        (extend_headers st (h :: rest)).2 = st ∧
        (extend_headers st (h :: rest)).1 = 0) := by
  constructor
  · intro st hs
    unfold extend_headers
    split
    · exact ⟨rfl, rfl⟩
    · rename_i hne
      rcases hgo : extend_headers_go st (currentTipOf st) hs 0 with ⟨added, st'⟩
      have hp := extend_headers_go_peers hs st (currentTipOf st) 0
      rw [hgo] at hp
      exact hp
  · intro st h rest cp hb hnh hpv hcp hne
    unfold extend_headers
    rw [if_neg (by simp)]
    unfold extend_headers_go
    rw [if_neg hnh, if_neg (by simp [hpv])]
    dsimp only
    rw [hcp]
    dsimp only
    rw [if_pos hne]
    refine ⟨?_, rfl⟩
    show ({ st with
      best_header_tip := (st.recent_chain.getLast?).getD st.best_header_tip } :
        ManagerState) = st
    cases hlast : st.recent_chain.getLast? with
    | none => rfl
    | some v =>
      have hv : v = st.best_header_tip := by
        rw [hb]
        unfold currentTipOf
        rw [hlast]
        rfl
      rw [hv]
      rfl

/-- C2 witness: at the concrete height-1 state whose next header hits the
height-2 checkpoint with the wrong hash, `extend_headers` is the identity and
adds zero headers. -/
theorem C2_witness :
    (extend_headers mgrCp1 [⟨10, 11⟩]).2 = mgrCp1 ∧
    (extend_headers mgrCp1 [⟨10, 11⟩]).1 = 0 :=
  C2_checkpoint_stop.2 mgrCp1 ⟨10, 11⟩ [] 555 (by decide) (by decide) (by decide)
    (by decide) (by decide)

/-- C9 (counterexample): on a chain of 8388617 hashes (hash at height i is i),
the locator loop accumulates 32 hashes without reaching genesis and the final
genesis append makes 33 — the locator does not contain at most 32 hashes. -/
theorem C9_counterexample :
    (build_locator 8388617 (fun i => i)).length = 33 ∧
    ¬ (build_locator 8388617 (fun i => i)).length ≤ 32 := by decide

/-- The locator loop grows its accumulator by at most its fuel. -/
theorem build_locator_go_length (f : Nat → Nat) :
    ∀ (fuel step idx : Nat) (loc : List Nat),
      (build_locator_go f fuel step idx loc).length ≤ loc.length + fuel := by
  intro fuel
  induction fuel with
  | zero => intro step idx loc; simp [build_locator_go]
  | succ n ih =>
    intro step idx loc
    unfold build_locator_go
    split
    · split
      · simp
      · calc (build_locator_go f n (if 10 ≤ (loc ++ [f idx]).length then step * 2 else step)
              (idx - (if 10 ≤ (loc ++ [f idx]).length then step * 2 else step))
              (loc ++ [f idx])).length
            ≤ (loc ++ [f idx]).length + n := ih _ _ _
          _ = loc.length + 1 + n := by simp
          _ ≤ loc.length + (n + 1) := by omega
    · omega

/-- The locator loop never changes the head of a non-empty accumulator. -/
theorem build_locator_go_head (f : Nat → Nat) :
    ∀ (fuel step idx : Nat) (loc : List Nat), loc ≠ [] →
      (build_locator_go f fuel step idx loc).head? = loc.head? := by
  intro fuel
  induction fuel with
  | zero => intro step idx loc _; rfl
  | succ n ih =>
    intro step idx loc hne
    unfold build_locator_go
    split
    · split
      · exact List.head?_append_of_ne_nil _ hne
      · rw [ih _ _ (loc ++ [f idx]) (by simp)]
        exact List.head?_append_of_ne_nil _ hne
    · rfl

/-- C9 (amended): the locator always terminates at the genesis hash, its head
is the chain tip, and it holds at most 33 hashes (32 accumulated by the
step-doubling walk, plus the genesis hash appended when the walk stopped
early); on a 30-deep chain it is exactly the step-1-for-10-then-doubling
sequence down to genesis. -/
theorem C9_locator_shape :
    (∀ (n : Nat) (f : Nat → Nat), (build_locator n f).getLast? = some (f 0)) ∧
    (∀ (n : Nat) (f : Nat → Nat), (build_locator n f).head? = some (f (n - 1))) ∧
    (∀ (n : Nat) (f : Nat → Nat), (build_locator n f).length ≤ 33) ∧
    build_locator 30 (fun i => i) =
      [29, 28, 27, 26, 25, 24, 23, 22, 21, 20, 18, 14, 6, 0] := by
  refine ⟨?_, ?_, ?_, by decide⟩
  · intro n f
    unfold build_locator
    dsimp only
    split
    · exact List.getLast?_concat _
    · rename_i hg
      simpa using hg
  · intro n f
    unfold build_locator
    have hh : (build_locator_go f 32 1 (n - 1) []).head? = some (f (n - 1)) := by
      unfold build_locator_go
      rw [if_pos (by simp)]
      split
      · rfl
      · rw [build_locator_go_head f _ _ _ _ (by simp)]
        rfl
    dsimp only
    split
    · rename_i hg
      rw [List.head?_append_of_ne_nil]
      · exact hh
      · intro hnil
        rw [hnil] at hh
        cases hh
    · exact hh
  · intro n f
    unfold build_locator
    have hl := build_locator_go_length f 32 1 (n - 1) []
    simp only [List.length_nil, Nat.zero_add] at hl
    dsimp only
    split
    · simpa using hl
    · omega

/-- A reversed enumeration scan finds nothing when the predicate fails at
every index. -/
theorem find?_enum_reverse_none (p : Nat × Nat → Bool) :
    ∀ l : List Nat, (∀ i, i < l.length → p (i, l.getD i 0) = false) →
      l.enum.reverse.find? p = none := by
  intro l
  induction l using List.reverseRecOn with
  | nil => intro _; rfl
  | append_singleton l x ih =>
    intro h
    rw [List.enum_append, List.enumFrom_singleton, List.reverse_append]
    have hx : p (l.length, x) = false := by
      have hl := h l.length (by simp)
      rwa [List.getD_append_right l [x] 0 l.length (le_refl _), Nat.sub_self] at hl
    simp only [List.reverse_singleton, List.singleton_append, List.find?_cons, hx]
    apply ih
    intro i hi
    have := h i (by simp; omega)
    rwa [List.getD_append l [x] 0 i hi] at this

/-- A reversed enumeration scan returns the largest index satisfying the
predicate. -/
theorem find?_enum_reverse_some (p : Nat × Nat → Bool) :
    ∀ (l : List Nat) (i : Nat), i < l.length → p (i, l.getD i 0) = true →
      (∀ j, i < j → j < l.length → p (j, l.getD j 0) = false) →
      l.enum.reverse.find? p = some (i, l.getD i 0) := by
  intro l
  induction l using List.reverseRecOn with
  | nil => intro i hi; simp at hi
  | append_singleton l x ih =>
    intro i hi hp hafter
    rw [List.enum_append, List.enumFrom_singleton, List.reverse_append]
    simp only [List.reverse_singleton, List.singleton_append, List.find?_cons]
    by_cases hix : i = l.length
    · have hx : (l ++ [x]).getD i 0 = x := by
        rw [hix, List.getD_append_right l [x] 0 l.length (le_refl _), Nat.sub_self]
        rfl
      rw [hx] at hp
      rw [hix] at hp
      simp only [hp]
      rw [hx, hix]
    · have hil : i < l.length := by
        simp only [List.length_append, List.length_singleton] at hi
        omega
      have hx : p (l.length, x) = false := by
        have hl := hafter l.length (by omega) (by simp)
        rwa [List.getD_append_right l [x] 0 l.length (le_refl _), Nat.sub_self] at hl
      simp only [hx]
      rw [List.getD_append l [x] 0 i hil] at hp ⊢
      apply ih i hil hp
      intro j hj hjl
      have := hafter j hj (by simp; omega)
      rwa [List.getD_append l [x] 0 j hjl] at this

/-- C4 (amended): for an in-range target, `estimate_fee_for_target` returns
the fallback fee when no bucket has at least 5 recorded confirmations at
exactly the target index, and otherwise returns the fee of the LARGEST
qualifying bucket (the buckets are scanned in descending order and the first
hit is returned). -/
theorem C4_estimate_largest :
    ∀ (est : FeeEstimator) (target : Nat),
      ¬(target = 0 ∨ (est.confirmations.headD []).length ≤ target) →
      ((∀ i, i < est.buckets.length → ¬ bucketQualifies est target i) →
        est.estimate_fee_for_target target = est.fallback_fee) ∧
      (∀ i, i < est.buckets.length → bucketQualifies est target i →
        (∀ j, i < j → j < est.buckets.length → ¬ bucketQualifies est target j) →
        est.estimate_fee_for_target target = est.buckets.getD i 0) := by
  intro est target hrange
  unfold FeeEstimator.estimate_fee_for_target
  rw [if_neg hrange]
  constructor
  · intro hnone
    rw [find?_enum_reverse_none]
    intro i hi
    have := hnone i hi
    simpa [bucketQualifies] using this
  · intro i hi hq hafter
    rw [find?_enum_reverse_some _ _ i hi (by simpa [bucketQualifies] using hq)]
    intro j hj hjl
    have := hafter j hj hjl
    simpa [bucketQualifies] using this

/-- C4 witness: on the concrete confirmation matrix `conf1` at target 3, the
largest qualifying bucket is index 8 (fee 100) and that is what
`estimate_fee_for_target` returns. -/
theorem C4_witness :
    FeeEstimator.estimate_fee_for_target estC 3 = estC.buckets.getD 8 0 :=
  (C4_estimate_largest estC 3 (by decide)).2 8 (by decide) (by decide)
    (by
      intro j h1 h2
      have h13 : j < 13 := by
        have hlen : estC.buckets.length = 13 := by decide
        omega
      interval_cases j <;> decide)

/-- A successful association-list lookup is list membership. -/
theorem lookupA_mem {β : Type} {t : Nat} {e : β} :
    ∀ {es : List (Nat × β)}, lookupA t es = some e → (t, e) ∈ es := by
  intro es
  induction es with
  | nil => intro h; cases h
  | cons kv rest ih =>
    intro h
    obtain ⟨k, v⟩ := kv
    unfold lookupA at h
    split at h
    · rename_i hk
      cases h
      subst hk
      exact List.mem_cons_self _ _
    · exact List.mem_cons_of_mem _ (ih h)

/-- The ancestor DFS stops immediately on an empty stack. -/
theorem get_ancestors_go_nil (st : MempoolState) (fuel : Nat)
    (visited anc : List Nat) :
    get_ancestors_go st fuel [] visited anc = anc := by
  cases fuel <;> rfl

/-- In a mempool whose entries all have empty `parents`, the ancestor DFS
discovers nothing. -/
theorem get_ancestors_nil (st : MempoolState)
    (h : ∀ kv ∈ st.entries, kv.2.parents = []) (txid : Nat) :
    get_ancestors st txid = [] := by
  unfold get_ancestors
  cases hl : lookupA txid st.entries with
  | none => simp [get_ancestors_go, hl, get_ancestors_go_nil]
  | some e =>
    have he : e.parents = [] := h (txid, e) (lookupA_mem hl)
    simp [get_ancestors_go, hl, he, get_ancestors_go_nil]

/-- Appending one transaction adds its weight. -/
theorem templateWeight_append (l : List Tx) (t : Tx) :
    templateWeight (l ++ [t]) = templateWeight l + t.weight := by
  simp [templateWeight]

/-- Selection-loop bound when every candidate has no ancestors: each inclusion
is guarded by `current_weight + weight ≤ max_weight`, so the accumulated
weight never exceeds the cap. -/
theorem template_go_weight (st : MempoolState) (mw : Nat)
    (hanc : ∀ txid, get_ancestors st txid = []) :
    ∀ (entries : List MempoolEntry) (template : List Tx) (included : List Nat)
      (cw : Nat), templateWeight template = cw → cw ≤ mw →
      templateWeight (get_block_template_go st mw entries template included cw) ≤ mw := by
  intro entries
  induction entries with
  | nil => intro template included cw hTw hle; simpa [get_block_template_go, hTw]
  | cons entry rest ih =>
    intro template included cw hTw hle
    unfold get_block_template_go
    split
    · exact ih template included cw hTw hle
    · dsimp only
      split
      · exact ih template included cw hTw hle
      · rename_i hnotover
        rw [hanc entry.txid]
        simp only [List.all_nil, Bool.not_true, if_false, List.foldl_nil]
        apply ih
        · rw [templateWeight_append, hTw]
        · omega

/-- C5 (amended): the per-item weight checks do not accumulate ancestor
weights, so the cap only holds in their absence — whenever no entry has
in-mempool parents, the block template's total weight never exceeds
`max_weight`. -/
theorem C5_template_weight_bound :
    ∀ (st : MempoolState) (max_weight : Nat),
      (∀ kv ∈ st.entries, kv.2.parents = []) →
      templateWeight (get_block_template st max_weight) ≤ max_weight := by
  intro st mw hpar
  unfold get_block_template
  exact template_go_weight st mw (get_ancestors_nil st hpar) _ [] [] 0 rfl (Nat.zero_le _)

/-- C5 witness: the bound applied to the reachable two-independent-transaction
mempool `stIndep` at `max_weight = 12`. -/
theorem C5_template_weight_bound_witness :
    templateWeight (get_block_template stIndep 12) ≤ 12 :=
  C5_template_weight_bound stIndep 12 (by decide)

/-- Erasing a key never lengthens an association list. -/
theorem eraseKey_length_le {β : Type} (k : Nat) :
    ∀ m : List (Nat × β), (eraseKey k m).length ≤ m.length := by
  intro m
  induction m with
  | nil => simp [eraseKey]
  | cons kv rest ih =>
    unfold eraseKey
    split
    · simp
    · simpa using ih

/-- Erasing one key leaves lookups of other keys unchanged. -/
theorem lookupA_eraseKey_ne {β : Type} {a b : Nat} (hab : a ≠ b) :
    ∀ m : List (Nat × β), lookupA b (eraseKey a m) = lookupA b m := by
  intro m
  induction m with
  | nil => rfl
  | cons kv rest ih =>
    obtain ⟨k, v⟩ := kv
    by_cases hk : k = a
    · have e1 : eraseKey a ((k, v) :: rest) = rest := by
        show (if k = a then rest else (k, v) :: eraseKey a rest) = rest
        rw [if_pos hk]
      have e2 : lookupA b ((k, v) :: rest) = lookupA b rest := by
        rw [show lookupA b ((k, v) :: rest) =
            if k = b then some v else lookupA b rest from rfl]
        rw [if_neg (fun hkb => hab (hk.symm.trans hkb))]
      rw [e1, e2]
    · have e1 : eraseKey a ((k, v) :: rest) = (k, v) :: eraseKey a rest := by
        show (if k = a then rest else (k, v) :: eraseKey a rest) =
          (k, v) :: eraseKey a rest
        rw [if_neg hk]
      rw [e1]
      rw [show lookupA b ((k, v) :: eraseKey a rest) =
          if k = b then some v else lookupA b (eraseKey a rest) from rfl]
      rw [show lookupA b ((k, v) :: rest) =
          if k = b then some v else lookupA b rest from rfl]
      split
      · rfl
      · exact ih

/-- Lookup after insert-or-replace. -/
theorem lookupA_insertA {β : Type} (a b : Nat) (v : β) (m : List (Nat × β)) :
    lookupA b (insertA a v m) = if a = b then some v else lookupA b m := by
  unfold insertA
  rw [show lookupA b ((a, v) :: eraseKey a m) =
      if a = b then some v else lookupA b (eraseKey a m) from rfl]
  split
  · rfl
  · rename_i hab
    exact lookupA_eraseKey_ne hab m

/-- Peer count after insert-or-replace. -/
theorem peerCount_insertA (a b n : Nat) (pp : List (Nat × Nat)) :
    peerCount (insertA a n pp) b = if a = b then n else peerCount pp b := by
  unfold peerCount
  rw [lookupA_insertA]
  split
  · rfl
  · rfl

/-- The scheduler invariant: the global in-flight window and every per-peer
window are respected. -/
def schedInv (d : Downloader) : Prop :=
  d.inflight.length ≤ d.global_window ∧
  ∀ a, peerCount d.per_peer a ≤ d.per_peer_window

/-- The assignment loop preserves both windows (each insertion is guarded). -/
theorem poll_assign_go_inv (addr now gw pw : Nat) :
    ∀ (queue : List Nat) (inflight : List (Nat × Nat × Nat))
      (per_peer : List (Nat × Nat)) (out : List Nat),
      inflight.length ≤ gw → (∀ b, peerCount per_peer b ≤ pw) →
      (poll_assign_go addr now gw pw queue inflight per_peer out).2.1.length ≤ gw ∧
      ∀ b, peerCount (poll_assign_go addr now gw pw queue inflight per_peer out).2.2.1 b
        ≤ pw := by
  intro queue
  induction queue with
  | nil => intro inflight per_peer out h1 h2; exact ⟨h1, h2⟩
  | cons h rest ih =>
    intro inflight per_peer out h1 h2
    unfold poll_assign_go
    split
    · exact ⟨h1, h2⟩
    · split
      · exact ⟨h1, h2⟩
      · rename_i hgw hpw
        apply ih
        · calc (insertA h (addr, now + BLK_TIMEOUT) inflight).length
              ≤ (eraseKey h inflight).length + 1 := by simp [insertA]
            _ ≤ inflight.length + 1 := by
                have := eraseKey_length_le h inflight
                omega
            _ ≤ gw := by omega
        · intro b
          rw [peerCount_insertA]
          split
          · omega
          · exact h2 b

/-- `complete` never increases any window usage. -/
theorem complete_inv (d : Downloader) (h : Nat) (hinv : schedInv d) :
    schedInv (d.complete h) := by
  obtain ⟨h1, h2⟩ := hinv
  unfold Downloader.complete
  split
  · exact ⟨h1, h2⟩
  · rename_i addr dl _
    constructor
    · have := eraseKey_length_le h d.inflight
      simpa using (le_trans this h1)
    · intro b
      dsimp only
      split
      · rename_i n hn
        rw [peerCount_insertA]
        split
        · have hcnt : peerCount d.per_peer addr = n := by
            unfold peerCount
            rw [hn]
            rfl
          have := h2 addr
          rw [hcnt] at this
          split <;> omega
        · exact h2 b
      · exact h2 b

/-- The timeout sweep's per-peer decrements preserve the per-peer window. -/
theorem reassign_fold_inv (pw : Nat) :
    ∀ (expired : List (Nat × Nat × Nat)) (pp : List (Nat × Nat)),
      (∀ b, peerCount pp b ≤ pw) →
      ∀ b, peerCount (expired.foldl
        (fun pp kv =>
          match lookupA kv.2.1 pp with
          | some c => insertA kv.2.1 (c - 1) pp
          | none => pp) pp) b ≤ pw := by
  intro expired
  induction expired with
  | nil => intro pp h b; exact h b
  | cons kv rest ih =>
    intro pp h b
    rw [List.foldl_cons]
    apply ih
    intro b'
    split
    · rename_i c hc
      rw [peerCount_insertA]
      split
      · have hcnt : peerCount pp kv.2.1 = c := by
          unfold peerCount
          rw [hc]
          rfl
        have := h kv.2.1
        rw [hcnt] at this
        omega
      · exact h b'
    · exact h b'

/-- Every scheduler operation preserves the invariant and the window sizes. -/
theorem applySchedOp_inv (d : Downloader) (op : SchedOp) (hinv : schedInv d) :
    schedInv (applySchedOp d op) ∧
    (applySchedOp d op).global_window = d.global_window ∧
    (applySchedOp d op).per_peer_window = d.per_peer_window := by
  obtain ⟨h1, h2⟩ := hinv
  cases op with
  | push hs => exact ⟨⟨h1, h2⟩, rfl, rfl⟩
  | assign addr now =>
    refine ⟨?_, rfl, rfl⟩
    have := poll_assign_go_inv addr now d.global_window d.per_peer_window
      d.queue d.inflight d.per_peer [] h1 h2
    exact ⟨this.1, this.2⟩
  | complete h =>
    have := complete_inv d h ⟨h1, h2⟩
    refine ⟨this, ?_, ?_⟩
    · show (d.complete h).global_window = d.global_window
      unfold Downloader.complete
      split <;> rfl
    · show (d.complete h).per_peer_window = d.per_peer_window
      unfold Downloader.complete
      split <;> rfl
  | reassign now =>
    refine ⟨⟨?_, ?_⟩, rfl, rfl⟩
    · calc (d.inflight.filter (fun kv => !(kv.2.2 ≤ now))).length
          ≤ d.inflight.length := List.length_filter_le _ _
        _ ≤ d.global_window := h1
    · exact reassign_fold_inv d.per_peer_window
        (d.inflight.filter (fun kv => kv.2.2 ≤ now)) d.per_peer h2

/-- C8: scheduler window invariant.  Starting from the fresh downloader with
`GLOBAL_INFLIGHT = 16` and `PER_PEER_INFLIGHT = 4`, after any sequence of
push_many / poll_assign / complete / reassign_timeouts operations, at most 16
hashes are in flight and every peer's in-flight count is at most 4. -/
theorem C8_scheduler_windows :
    ∀ ops : List SchedOp,
      (applySchedOps ops (Downloader.new_ GLOBAL_INFLIGHT PER_PEER_INFLIGHT)).inflight.length
        ≤ 16 ∧
      ∀ a, peerCount
        (applySchedOps ops (Downloader.new_ GLOBAL_INFLIGHT PER_PEER_INFLIGHT)).per_peer a
        ≤ 4 := by
  have main : ∀ (ops : List SchedOp) (d : Downloader), schedInv d →
      schedInv (applySchedOps ops d) ∧
      (applySchedOps ops d).global_window = d.global_window ∧
      (applySchedOps ops d).per_peer_window = d.per_peer_window := by
    intro ops
    induction ops with
    | nil => intro d hd; exact ⟨hd, rfl, rfl⟩
    | cons op rest ih =>
      intro d hd
      have hstep := applySchedOp_inv d op hd
      have hrest := ih (applySchedOp d op) hstep.1
      exact ⟨hrest.1,
        hrest.2.1.trans hstep.2.1,
        hrest.2.2.trans hstep.2.2⟩
  intro ops
  have h0 : schedInv (Downloader.new_ GLOBAL_INFLIGHT PER_PEER_INFLIGHT) := by
    constructor
    · simp [Downloader.new_, GLOBAL_INFLIGHT]
    · intro a; simp [Downloader.new_, peerCount, lookupA, PER_PEER_INFLIGHT]
  have := main ops _ h0
  obtain ⟨⟨hg, hp⟩, hgw, hpw⟩ := this
  constructor
  · rw [hgw] at hg
    exact hg
  · intro a
    have := hp a
    rw [hpw] at this
    exact this

/-- Lookup through a key-preserving map. -/
theorem lookupA_map_adjust (g : Nat → MempoolEntry → MempoolEntry) (t : Nat) :
    ∀ es : List (Nat × MempoolEntry),
      lookupA t (es.map (fun kv => (kv.1, g kv.1 kv.2))) = (lookupA t es).map (g t) := by
  intro es
  induction es with
  | nil => rfl
  | cons kv rest ih =>
    obtain ⟨k, v⟩ := kv
    show (if k = t then some (g k v) else _) = _
    rw [show lookupA t ((k, v) :: rest) = if k = t then some v else lookupA t rest from rfl]
    by_cases hk : k = t
    · rw [if_pos hk, if_pos hk, hk]
      rfl
    · rw [if_neg hk, if_neg hk]
      exact ih

/-- A key-preserving map does not change the key list. -/
theorem keys_map_adjust (g : Nat → MempoolEntry → MempoolEntry)
    (es : List (Nat × MempoolEntry)) :
    (es.map (fun kv => (kv.1, g kv.1 kv.2))).map Prod.fst = es.map Prod.fst := by
  induction es with
  | nil => rfl
  | cons kv rest ih => simp [ih]

/-- The keys of `eraseKey` form a sublist of the original keys. -/
theorem keys_eraseKey_sublist {β : Type} (k : Nat) :
    ∀ es : List (Nat × β), ((eraseKey k es).map Prod.fst).Sublist (es.map Prod.fst) := by
  intro es
  induction es with
  | nil => simp [eraseKey]
  | cons kv rest ih =>
    obtain ⟨k', v⟩ := kv
    show ((if k' = k then rest else (k', v) :: eraseKey k rest).map Prod.fst).Sublist _
    split
    · exact (List.sublist_cons_self _ _).trans (List.Sublist.refl _)
    · simpa using ih

/-- A present key is in the key list. -/
theorem mem_keys_of_lookupA {β : Type} {t : Nat} {e : β} :
    ∀ {es : List (Nat × β)}, lookupA t es = some e → t ∈ es.map Prod.fst := by
  intro es h
  exact List.mem_map.mpr ⟨(t, e), lookupA_mem h, rfl⟩

/-- An absent key looks up to `none`. -/
theorem lookupA_eq_none_of_not_mem_keys {β : Type} {t : Nat} :
    ∀ {es : List (Nat × β)}, t ∉ es.map Prod.fst → lookupA t es = none := by
  intro es
  induction es with
  | nil => intro _; rfl
  | cons kv rest ih =>
    obtain ⟨k, v⟩ := kv
    intro h
    simp only [List.map_cons, List.mem_cons] at h
    push_neg at h
    show (if k = t then some v else lookupA t rest) = none
    rw [if_neg (fun hk => h.1 hk.symm)]
    exact ih h.2

/-- With duplicate-free keys, erasing a key makes it unreachable. -/
theorem lookupA_eraseKey_self {β : Type} (k : Nat) :
    ∀ es : List (Nat × β), (es.map Prod.fst).Nodup →
      lookupA k (eraseKey k es) = none := by
  intro es
  induction es with
  | nil => intro _; rfl
  | cons kv rest ih =>
    obtain ⟨k', v⟩ := kv
    intro hnd
    simp only [List.map_cons, List.nodup_cons] at hnd
    show lookupA k (if k' = k then rest else (k', v) :: eraseKey k rest) = none
    by_cases hk : k' = k
    · rw [if_pos hk]
      subst hk
      exact lookupA_eq_none_of_not_mem_keys hnd.1
    · rw [if_neg hk]
      show (if k' = k then some v else lookupA k (eraseKey k rest)) = none
      rw [if_neg hk]
      exact ih hnd.2

/-- Primitive removals never create a key. -/
theorem lookupA_eraseKey_none {β : Type} {t k : Nat} :
    ∀ {es : List (Nat × β)}, lookupA t es = none → lookupA t (eraseKey k es) = none := by
  intro es
  induction es with
  | nil => intro _; rfl
  | cons kv rest ih =>
    obtain ⟨k', v⟩ := kv
    intro h
    rw [show lookupA t ((k', v) :: rest) = if k' = t then some v else lookupA t rest
      from rfl] at h
    by_cases hkt : k' = t
    · rw [if_pos hkt] at h; cases h
    · rw [if_neg hkt] at h
      show lookupA t (if k' = k then rest else (k', v) :: eraseKey k rest) = none
      split
      · exact h
      · rw [show lookupA t ((k', v) :: eraseKey k rest) =
            if k' = t then some v else lookupA t (eraseKey k rest) from rfl,
          if_neg hkt]
        exact ih h

/-- `remAdjust` keeps the scalar fields. -/
theorem remAdjust_fields (e0 : MempoolEntry) (t0 k : Nat) (e : MempoolEntry) :
    (remAdjust e0 t0 k e).vsize = e.vsize ∧ (remAdjust e0 t0 k e).fee = e.fee ∧
    (remAdjust e0 t0 k e).txid = e.txid := by
  unfold remAdjust MempoolEntry.update_ancestor_state MempoolEntry.update_descendant_state
  dsimp only
  split <;> split <;> exact ⟨rfl, rfl, rfl⟩

/-- `remAdjust` on the children set. -/
theorem remAdjust_children (e0 : MempoolEntry) (t0 k : Nat) (e : MempoolEntry) :
    (remAdjust e0 t0 k e).children =
      if k ∈ e0.parents then setRemove t0 e.children else e.children := by
  unfold remAdjust MempoolEntry.update_ancestor_state MempoolEntry.update_descendant_state
  dsimp only
  split <;> split <;> rfl

/-- `remAdjust` on the parents set. -/
theorem remAdjust_parents (e0 : MempoolEntry) (t0 k : Nat) (e : MempoolEntry) :
    (remAdjust e0 t0 k e).parents =
      if k ∈ e0.children then setRemove t0 e.parents else e.parents := by
  unfold remAdjust MempoolEntry.update_ancestor_state MempoolEntry.update_descendant_state
  dsimp only
  split <;> split <;> rfl

/-- `remAdjust` on the descendant aggregates. -/
theorem remAdjust_desc (e0 : MempoolEntry) (t0 k : Nat) (e : MempoolEntry) :
    (remAdjust e0 t0 k e).descendant_count =
      (if k ∈ e0.parents then ((e.descendant_count : Int) + (-1)).toNat
       else e.descendant_count) ∧
    (remAdjust e0 t0 k e).descendant_size =
      (if k ∈ e0.parents then ((e.descendant_size : Int) + (-(e0.vsize : Int))).toNat
       else e.descendant_size) ∧
    (remAdjust e0 t0 k e).descendant_fees =
      (if k ∈ e0.parents then ((e.descendant_fees : Int) + (-(e0.fee : Int))).toNat
       else e.descendant_fees) := by
  unfold remAdjust MempoolEntry.update_ancestor_state MempoolEntry.update_descendant_state
  dsimp only
  split <;> split <;> simp_all

/-- `addAdjust` keeps the scalar fields and the parents set. -/
theorem addAdjust_fields (ps : List Nat) (txid vsz fee k : Nat) (e : MempoolEntry) :
    (addAdjust ps txid vsz fee k e).vsize = e.vsize ∧
    (addAdjust ps txid vsz fee k e).fee = e.fee ∧
    (addAdjust ps txid vsz fee k e).txid = e.txid ∧
    (addAdjust ps txid vsz fee k e).parents = e.parents := by
  unfold addAdjust MempoolEntry.update_descendant_state
  split <;> exact ⟨rfl, rfl, rfl, rfl⟩

/-- `addAdjust` on the children set. -/
theorem addAdjust_children (ps : List Nat) (txid vsz fee k : Nat) (e : MempoolEntry) :
    (addAdjust ps txid vsz fee k e).children =
      if k ∈ ps then setInsert txid e.children else e.children := by
  unfold addAdjust MempoolEntry.update_descendant_state
  split <;> rfl

/-- `addAdjust` on the descendant aggregates (the positive deltas never
clamp). -/
theorem addAdjust_desc (ps : List Nat) (txid vsz fee k : Nat) (e : MempoolEntry) :
    (addAdjust ps txid vsz fee k e).descendant_count =
      (if k ∈ ps then e.descendant_count + 1 else e.descendant_count) ∧
    (addAdjust ps txid vsz fee k e).descendant_size =
      (if k ∈ ps then e.descendant_size + vsz else e.descendant_size) ∧
    (addAdjust ps txid vsz fee k e).descendant_fees =
      (if k ∈ ps then e.descendant_fees + fee else e.descendant_fees) := by
  unfold addAdjust MempoolEntry.update_descendant_state
  split <;> refine ⟨?_, ?_, ?_⟩ <;> simp <;> omega

/-- `setInsert` of a fresh element is an append. -/
theorem setInsert_of_not_mem {x : Nat} {s : List Nat} (h : x ∉ s) :
    setInsert x s = s ++ [x] := by
  unfold setInsert
  rw [if_neg h]

/-- `setInsert` preserves duplicate-freeness. -/
theorem setInsert_nodup {x : Nat} {s : List Nat} (h : s.Nodup) :
    (setInsert x s).Nodup := by
  unfold setInsert
  split
  · exact h
  · rename_i hx
    simp [List.nodup_append, h, hx]

/-- Sum of entry vsizes over an appended element. -/
theorem vsizeSumOf_append (es : List (Nat × MempoolEntry)) (l : List Nat) (x : Nat) :
    vsizeSumOf es (l ++ [x]) = vsizeSumOf es l + (lookupA x es).elim 0 (·.vsize) := by
  simp [vsizeSumOf]

/-- Sum of entry fees over an appended element. -/
theorem feeSumOf_append (es : List (Nat × MempoolEntry)) (l : List Nat) (x : Nat) :
    feeSumOf es (l ++ [x]) = feeSumOf es l + (lookupA x es).elim 0 (·.fee) := by
  simp [feeSumOf]

/-- Vsize sums only depend on the lookups of the listed txids. -/
theorem vsizeSumOf_congr {es es' : List (Nat × MempoolEntry)} {l : List Nat}
    (h : ∀ c ∈ l, (lookupA c es').elim 0 (·.vsize) = (lookupA c es).elim 0 (·.vsize)) :
    vsizeSumOf es' l = vsizeSumOf es l := by
  unfold vsizeSumOf
  rw [List.map_congr_left h]

/-- Fee sums only depend on the lookups of the listed txids. -/
theorem feeSumOf_congr {es es' : List (Nat × MempoolEntry)} {l : List Nat}
    (h : ∀ c ∈ l, (lookupA c es').elim 0 (·.fee) = (lookupA c es).elim 0 (·.fee)) :
    feeSumOf es' l = feeSumOf es l := by
  unfold feeSumOf
  rw [List.map_congr_left h]

/-- Splitting a member out of a vsize sum. -/
theorem vsizeSumOf_erase (es : List (Nat × MempoolEntry)) {l : List Nat} {x : Nat}
    (hx : x ∈ l) :
    vsizeSumOf es l = (lookupA x es).elim 0 (·.vsize) + vsizeSumOf es (l.erase x) := by
  have hperm : l.Perm (x :: l.erase x) := List.perm_cons_erase hx
  unfold vsizeSumOf
  rw [(hperm.map (fun c => (lookupA c es).elim 0 (·.vsize))).sum_eq]
  simp

/-- Splitting a member out of a fee sum. -/
theorem feeSumOf_erase (es : List (Nat × MempoolEntry)) {l : List Nat} {x : Nat}
    (hx : x ∈ l) :
    feeSumOf es l = (lookupA x es).elim 0 (·.fee) + feeSumOf es (l.erase x) := by
  have hperm : l.Perm (x :: l.erase x) := List.perm_cons_erase hx
  unfold feeSumOf
  rw [(hperm.map (fun c => (lookupA c es).elim 0 (·.fee))).sum_eq]
  simp

/-- `remove_tx` preserves the mempool well-formedness invariant. -/
theorem remove_tx_inv (st : MempoolState) (t0 : Nat) (hinv : MemInv st.entries) :
    MemInv (remove_tx st t0).2.entries := by
  unfold remove_tx
  cases hl : lookupA t0 st.entries with
  | none => exact hinv
  | some e0 =>
    dsimp only
    set E2 := (eraseKey t0 st.entries).map
      (fun kv => (kv.1, remAdjust e0 t0 kv.1 kv.2)) with hE2
    have hget : ∀ {t e'}, lookupA t E2 = some e' →
        t ≠ t0 ∧ ∃ e, lookupA t st.entries = some e ∧ e' = remAdjust e0 t0 t e := by
      intro t e' h
      rw [hE2, lookupA_map_adjust] at h
      cases hE : lookupA t (eraseKey t0 st.entries) with
      | none => rw [hE] at h; cases h
      | some e =>
        rw [hE] at h
        simp only [Option.map_some'] at h
        have ht0 : t ≠ t0 := by
          intro hh
          subst hh
          rw [lookupA_eraseKey_self t st.entries hinv.keysNodup] at hE
          cases hE
        rw [lookupA_eraseKey_ne (fun hh => ht0 hh.symm)] at hE
        injection h with h
        exact ⟨ht0, e, hE, h.symm⟩
    have hput : ∀ {t : Nat} {e : MempoolEntry}, lookupA t st.entries = some e → t ≠ t0 →
        lookupA t E2 = some (remAdjust e0 t0 t e) := by
      intro t e h ht
      rw [hE2, lookupA_map_adjust, lookupA_eraseKey_ne (fun hh => ht hh.symm), h]
      rfl
    have hA : ∀ t e, lookupA t st.entries = some e → t ∈ e0.parents →
        t0 ∈ e.children := by
      intro t e he hp
      obtain ⟨_, pe, hpe, hmem⟩ := hinv.parBack t0 e0 hl t hp
      have : pe = e := by
        have := hpe.symm.trans he
        injection this
      rw [← this]
      exact hmem
    have hB : ∀ t e, lookupA t st.entries = some e → t ∉ e0.parents →
        t0 ∉ e.children := by
      intro t e he hnp hmem
      obtain ⟨_, ce, hce, hcp⟩ := hinv.chBack t e he t0 hmem
      have : ce = e0 := by
        have := hce.symm.trans hl
        injection this
      subst this
      exact hnp hcp
    have hD : ∀ t e, lookupA t st.entries = some e → t ∉ e0.children →
        t0 ∉ e.parents := by
      intro t e he hnc hmem
      obtain ⟨_, pe, hpe, hpc⟩ := hinv.parBack t e he t0 hmem
      have : pe = e0 := by
        have := hpe.symm.trans hl
        injection this
      subst this
      exact hnc hpc
    have hvs_congr : ∀ (l : List Nat),
        (∀ c ∈ l, c ≠ t0 ∧ ∃ ce, lookupA c st.entries = some ce) →
        vsizeSumOf E2 l = vsizeSumOf st.entries l := by
      intro l hm
      apply vsizeSumOf_congr
      intro c hc
      obtain ⟨hcnz, ce, hce⟩ := hm c hc
      rw [hput hce hcnz, hce]
      exact (remAdjust_fields e0 t0 c ce).1
    have hfs_congr : ∀ (l : List Nat),
        (∀ c ∈ l, c ≠ t0 ∧ ∃ ce, lookupA c st.entries = some ce) →
        feeSumOf E2 l = feeSumOf st.entries l := by
      intro l hm
      apply feeSumOf_congr
      intro c hc
      obtain ⟨hcnz, ce, hce⟩ := hm c hc
      rw [hput hce hcnz, hce]
      exact (remAdjust_fields e0 t0 c ce).2.1
    refine ⟨?_, ?_, ?_, ?_, ?_, ?_, ?_, ?_, ?_⟩
    · rw [hE2, keys_map_adjust]
      exact hinv.keysNodup.sublist (keys_eraseKey_sublist t0 st.entries)
    · intro t e' h
      obtain ⟨ht0, e, he, rfl⟩ := hget h
      rw [(remAdjust_fields e0 t0 t e).2.2]
      exact hinv.txidEq t e he
    · intro t e' h
      obtain ⟨ht0, e, he, rfl⟩ := hget h
      rw [remAdjust_parents]
      split
      · exact (hinv.parNodup t e he).erase t0
      · exact hinv.parNodup t e he
    · intro t e' h
      obtain ⟨ht0, e, he, rfl⟩ := hget h
      rw [remAdjust_children]
      split
      · exact (hinv.chNodup t e he).erase t0
      · exact hinv.chNodup t e he
    · intro t e' h c hc
      obtain ⟨ht0, e, he, rfl⟩ := hget h
      rw [remAdjust_children] at hc
      have hstep : c ∈ e.children ∧ c ≠ t0 := by
        by_cases hp : t ∈ e0.parents
        · rw [if_pos hp] at hc
          exact ⟨List.mem_of_mem_erase hc,
            (((hinv.chNodup t e he).mem_erase_iff).mp hc).1⟩
        · rw [if_neg hp] at hc
          refine ⟨hc, ?_⟩
          intro hh
          subst hh
          exact hB t e he hp hc
      obtain ⟨hcmem, hcnz⟩ := hstep
      obtain ⟨hct, ce, hce, hcp⟩ := hinv.chBack t e he c hcmem
      refine ⟨hct, remAdjust e0 t0 c ce, hput hce hcnz, ?_⟩
      rw [remAdjust_parents]
      split
      · exact (List.mem_erase_of_ne ht0).mpr hcp
      · exact hcp
    · intro t e' h p hp'
      obtain ⟨ht0, e, he, rfl⟩ := hget h
      rw [remAdjust_parents] at hp'
      have hstep : p ∈ e.parents ∧ p ≠ t0 := by
        by_cases hcm : t ∈ e0.children
        · rw [if_pos hcm] at hp'
          exact ⟨List.mem_of_mem_erase hp',
            (((hinv.parNodup t e he).mem_erase_iff).mp hp').1⟩
        · rw [if_neg hcm] at hp'
          refine ⟨hp', ?_⟩
          intro hh
          subst hh
          exact hD t e he hcm hp'
      obtain ⟨hpmem, hpnz⟩ := hstep
      obtain ⟨hpt, pe, hpe, hpc⟩ := hinv.parBack t e he p hpmem
      refine ⟨hpt, remAdjust e0 t0 p pe, hput hpe hpnz, ?_⟩
      rw [remAdjust_children]
      split
      · exact (List.mem_erase_of_ne ht0).mpr hpc
      · exact hpc
    · intro t e' h
      obtain ⟨ht0, e, he, rfl⟩ := hget h
      rw [(remAdjust_desc e0 t0 t e).1, remAdjust_children]
      by_cases hp : t ∈ e0.parents
      · rw [if_pos hp, if_pos hp]
        have ht0ch : t0 ∈ e.children := hA t e he hp
        have hcnt := hinv.descCount t e he
        have hlen : (e.children.erase t0).length = e.children.length - 1 :=
          List.length_erase_of_mem ht0ch
        have hpos : 0 < e.children.length := List.length_pos.mpr
          (fun hh => by rw [hh] at ht0ch; cases ht0ch)
        unfold setRemove
        rw [hlen, hcnt]
        omega
      · rw [if_neg hp, if_neg hp]
        exact hinv.descCount t e he
    · intro t e' h
      obtain ⟨ht0, e, he, rfl⟩ := hget h
      rw [(remAdjust_desc e0 t0 t e).2.1, remAdjust_children,
        (remAdjust_fields e0 t0 t e).1]
      by_cases hp : t ∈ e0.parents
      · rw [if_pos hp, if_pos hp]
        have ht0ch : t0 ∈ e.children := hA t e he hp
        have hsz := hinv.descSize t e he
        have hsplit := vsizeSumOf_erase st.entries ht0ch
        have helim : (lookupA t0 st.entries).elim 0 (·.vsize) = e0.vsize := by
          rw [hl]
          rfl
        have hcong : vsizeSumOf E2 (e.children.erase t0) =
            vsizeSumOf st.entries (e.children.erase t0) := by
          apply hvs_congr
          intro c hc
          refine ⟨(((hinv.chNodup t e he).mem_erase_iff).mp hc).1, ?_⟩
          obtain ⟨_, ce, hce, _⟩ :=
            hinv.chBack t e he c (List.mem_of_mem_erase hc)
          exact ⟨ce, hce⟩
        unfold setRemove
        rw [hcong]
        rw [helim] at hsplit
        rw [hsplit] at hsz
        omega
      · rw [if_neg hp, if_neg hp]
        have hsz := hinv.descSize t e he
        have hcong : vsizeSumOf E2 e.children = vsizeSumOf st.entries e.children := by
          apply hvs_congr
          intro c hc
          refine ⟨?_, ?_⟩
          · intro hh
            subst hh
            exact hB t e he hp hc
          · obtain ⟨_, ce, hce, _⟩ := hinv.chBack t e he c hc
            exact ⟨ce, hce⟩
        rw [hcong]
        exact hsz
    · intro t e' h
      obtain ⟨ht0, e, he, rfl⟩ := hget h
      rw [(remAdjust_desc e0 t0 t e).2.2, remAdjust_children,
        (remAdjust_fields e0 t0 t e).2.1]
      by_cases hp : t ∈ e0.parents
      · rw [if_pos hp, if_pos hp]
        have ht0ch : t0 ∈ e.children := hA t e he hp
        have hsz := hinv.descFees t e he
        have hsplit := feeSumOf_erase st.entries ht0ch
        have helim : (lookupA t0 st.entries).elim 0 (·.fee) = e0.fee := by
          rw [hl]
          rfl
        have hcong : feeSumOf E2 (e.children.erase t0) =
            feeSumOf st.entries (e.children.erase t0) := by
          apply hfs_congr
          intro c hc
          refine ⟨(((hinv.chNodup t e he).mem_erase_iff).mp hc).1, ?_⟩
          obtain ⟨_, ce, hce, _⟩ :=
            hinv.chBack t e he c (List.mem_of_mem_erase hc)
          exact ⟨ce, hce⟩
        unfold setRemove
        rw [hcong]
        rw [helim] at hsplit
        rw [hsplit] at hsz
        omega
      · rw [if_neg hp, if_neg hp]
        have hsz := hinv.descFees t e he
        have hcong : feeSumOf E2 e.children = feeSumOf st.entries e.children := by
          apply hfs_congr
          intro c hc
          refine ⟨?_, ?_⟩
          · intro hh
            subst hh
            exact hB t e he hp hc
          · obtain ⟨_, ce, hce, _⟩ := hinv.chBack t e he c hc
            exact ⟨ce, hce⟩
        rw [hcong]
        exact hsz

/-- Membership in `setInsert`. -/
theorem mem_setInsert {a x : Nat} {s : List Nat} :
    a ∈ setInsert x s ↔ a ∈ s ∨ a = x := by
  unfold setInsert
  split
  · rename_i hx
    constructor
    · intro h; exact Or.inl h
    · rintro (h | rfl)
      · exact h
      · exact hx
  · simp

/-- The inserted element is a member. -/
theorem mem_setInsert_self (x : Nat) (s : List Nat) : x ∈ setInsert x s :=
  mem_setInsert.mpr (Or.inr rfl)

/-- Old members stay members. -/
theorem mem_setInsert_of_mem {a : Nat} (x : Nat) {s : List Nat} (h : a ∈ s) :
    a ∈ setInsert x s :=
  mem_setInsert.mpr (Or.inl h)

/-- A present key admits a lookup. -/
theorem lookupA_isSome_of_mem_keys {β : Type} {t : Nat} :
    ∀ {es : List (Nat × β)}, t ∈ es.map Prod.fst → ∃ e, lookupA t es = some e := by
  intro es
  induction es with
  | nil => intro h; cases h
  | cons kv rest ih =>
    obtain ⟨k, v⟩ := kv
    intro h
    by_cases hk : k = t
    · exact ⟨v, by rw [show lookupA t ((k, v) :: rest) =
        if k = t then some v else lookupA t rest from rfl, if_pos hk]⟩
    · have : t ∈ rest.map Prod.fst := by
        simp only [List.map_cons, List.mem_cons] at h
        rcases h with h | h
        · exact absurd h.symm hk
        · exact h
      obtain ⟨e, he⟩ := ih this
      exact ⟨e, by rw [show lookupA t ((k, v) :: rest) =
        if k = t then some v else lookupA t rest from rfl, if_neg hk]; exact he⟩

/-- `remove_tx` never creates a key. -/
theorem remove_tx_lookup_none (st : MempoolState) (c : Nat) {t : Nat}
    (h : lookupA t st.entries = none) :
    lookupA t (remove_tx st c).2.entries = none := by
  unfold remove_tx
  cases hl : lookupA c st.entries with
  | none => exact h
  | some e0 =>
    dsimp only
    rw [lookupA_map_adjust, lookupA_eraseKey_none h]
    rfl

/-- Folded removals preserve the invariant. -/
theorem foldl_remove_inv :
    ∀ (cs : List Nat) (st : MempoolState), MemInv st.entries →
      MemInv ((cs.foldl (fun s c => (remove_tx s c).2) st)).entries := by
  intro cs
  induction cs with
  | nil => intro st h; exact h
  | cons c rest ih =>
    intro st h
    rw [List.foldl_cons]
    exact ih _ (remove_tx_inv st c h)

/-- Folded removals never create a key. -/
theorem foldl_remove_lookup_none :
    ∀ (cs : List Nat) (st : MempoolState) {t : Nat}, lookupA t st.entries = none →
      lookupA t ((cs.foldl (fun s c => (remove_tx s c).2) st)).entries = none := by
  intro cs
  induction cs with
  | nil => intro st t h; exact h
  | cons c rest ih =>
    intro st t h
    rw [List.foldl_cons]
    exact ih _ (remove_tx_lookup_none st c h)

/-- `handle_replacement` preserves the invariant. -/
theorem handle_replacement_inv (st : MempoolState) (ne : MempoolEntry)
    (cs : List Nat) (r : Except MemErr Unit) (st' : MempoolState)
    (heq : handle_replacement st ne cs = (r, st')) (hinv : MemInv st.entries) :
    MemInv st'.entries := by
  unfold handle_replacement at heq
  dsimp only at heq
  split at heq
  · cases heq
    exact hinv
  · split at heq
    · cases heq
      exact hinv
    · cases heq
      exact foldl_remove_inv cs st hinv

/-- `handle_replacement` never creates a key. -/
theorem handle_replacement_lookup_none (st : MempoolState) (ne : MempoolEntry)
    (cs : List Nat) (r : Except MemErr Unit) (st' : MempoolState)
    (heq : handle_replacement st ne cs = (r, st')) {t : Nat}
    (h : lookupA t st.entries = none) : lookupA t st'.entries = none := by
  unfold handle_replacement at heq
  dsimp only at heq
  split at heq
  · cases heq
    exact h
  · split at heq
    · cases heq
      exact h
    · cases heq
      exact foldl_remove_lookup_none cs st h

/-- The eviction loop preserves the invariant. -/
theorem maybe_evict_go_inv (cs ms : Nat) :
    ∀ (l : List MempoolEntry) (ev : Nat) (st : MempoolState), MemInv st.entries →
      MemInv (maybe_evict_go cs ms l ev st).entries := by
  intro l
  induction l with
  | nil => intro ev st h; exact h
  | cons entry rest ih =>
    intro ev st h
    unfold maybe_evict_go
    split
    · exact h
    · split
      · rename_i st' heq
        have hr := remove_tx_inv st entry.txid h
        rw [heq] at hr
        exact ih _ st' hr
      · rename_i st' heq
        have hr := remove_tx_inv st entry.txid h
        rw [heq] at hr
        exact ih _ st' hr

/-- `maybe_evict` preserves the invariant. -/
theorem maybe_evict_inv (st : MempoolState) (hinv : MemInv st.entries) :
    MemInv (maybe_evict st).entries := by
  unfold maybe_evict
  dsimp only
  split
  · exact hinv
  · exact maybe_evict_go_inv _ _ _ _ st hinv

/-- `find_parents` produces a duplicate-free list. -/
theorem find_parents_nodup (st : MempoolState) (tx : Tx) :
    (find_parents st tx).Nodup := by
  unfold find_parents
  generalize tx.inputs = inputs
  have : ∀ (l : List TxIn) (acc : List Nat), acc.Nodup →
      (l.foldl (fun acc i =>
        if (lookupA i.prevoutTxid st.entries).isSome then setInsert i.prevoutTxid acc
        else acc) acc).Nodup := by
    intro l
    induction l with
    | nil => intro acc h; exact h
    | cons i rest ih =>
      intro acc h
      rw [List.foldl_cons]
      apply ih
      split
      · exact setInsert_nodup h
      · exact h
  exact this inputs [] List.nodup_nil

/-- Every member of `find_parents` is a live entry. -/
theorem find_parents_isSome (st : MempoolState) (tx : Tx) :
    ∀ p ∈ find_parents st tx, ∃ pe, lookupA p st.entries = some pe := by
  unfold find_parents
  generalize tx.inputs = inputs
  have : ∀ (l : List TxIn) (acc : List Nat),
      (∀ p ∈ acc, ∃ pe, lookupA p st.entries = some pe) →
      ∀ p ∈ (l.foldl (fun acc i =>
        if (lookupA i.prevoutTxid st.entries).isSome then setInsert i.prevoutTxid acc
        else acc) acc), ∃ pe, lookupA p st.entries = some pe := by
    intro l
    induction l with
    | nil => intro acc h; exact h
    | cons i rest ih =>
      intro acc h
      rw [List.foldl_cons]
      apply ih
      split
      · rename_i hsome
        intro p hp
        rcases mem_setInsert.mp hp with hp | rfl
        · exact h p hp
        · exact Option.isSome_iff_exists.mp hsome
      · exact h
  exact this inputs [] (by intro p hp; cases hp)

/-- Inserting a fresh entry with live, duplicate-free parents and self-only
descendant aggregates — while bumping each parent via `addAdjust` — preserves
the invariant.  This is the insertion step of `add_tx`. -/
theorem insert_entry_inv (es : List (Nat × MempoolEntry)) (hinv : MemInv es)
    (txid : Nat) (E : MempoolEntry)
    (hfresh : lookupA txid es = none)
    (hT : E.txid = txid)
    (hpar_nodup : E.parents.Nodup)
    (hpar_live : ∀ p ∈ E.parents, ∃ pe, lookupA p es = some pe)
    (hch : E.children = [])
    (hdc : E.descendant_count = 1)
    (hds : E.descendant_size = E.vsize)
    (hdf : E.descendant_fees = E.fee) :
    MemInv ((txid, E) ::
      es.map (fun kv => (kv.1, addAdjust E.parents txid E.vsize E.fee kv.1 kv.2))) := by
  set NE := (txid, E) ::
    es.map (fun kv => (kv.1, addAdjust E.parents txid E.vsize E.fee kv.1 kv.2)) with hNE
  have hfreshK : txid ∉ es.map Prod.fst := by
    intro hmem
    obtain ⟨e, he⟩ := lookupA_isSome_of_mem_keys hmem
    rw [he] at hfresh
    cases hfresh
  have hlookNE : ∀ t, lookupA t NE =
      if txid = t then some E
      else (lookupA t es).map (addAdjust E.parents txid E.vsize E.fee t) := by
    intro t
    rw [hNE, show lookupA t ((txid, E) :: _) =
      if txid = t then some E else lookupA t (es.map
        (fun kv => (kv.1, addAdjust E.parents txid E.vsize E.fee kv.1 kv.2))) from rfl]
    split
    · rfl
    · rw [lookupA_map_adjust]
  have hget : ∀ {t e'}, lookupA t NE = some e' →
      (t = txid ∧ e' = E) ∨
      (t ≠ txid ∧ ∃ e, lookupA t es = some e ∧
        e' = addAdjust E.parents txid E.vsize E.fee t e) := by
    intro t e' h
    rw [hlookNE] at h
    split at h
    · rename_i hx
      injection h with h
      exact Or.inl ⟨hx.symm, h.symm⟩
    · rename_i hx
      cases hE : lookupA t es with
      | none => rw [hE] at h; cases h
      | some e =>
        rw [hE] at h
        simp only [Option.map_some', Option.some.injEq] at h
        refine Or.inr ⟨fun hh => hx hh.symm, e, rfl, ?_⟩
        exact h.symm
  have hput : ∀ {t : Nat} {e : MempoolEntry}, lookupA t es = some e →
      lookupA t NE = some (addAdjust E.parents txid E.vsize E.fee t e) := by
    intro t e h
    have ht : txid ≠ t := by
      intro hh
      rw [← hh] at h
      rw [h] at hfresh
      cases hfresh
    rw [hlookNE, if_neg ht, h]
    rfl
  have hlive_ne : ∀ {t : Nat} {e : MempoolEntry}, lookupA t es = some e →
      t ≠ txid := by
    intro t e h hh
    rw [hh] at h
    rw [h] at hfresh
    cases hfresh
  have hchild_not_txid : ∀ {t e}, lookupA t es = some e → txid ∉ e.children := by
    intro t e he hmem
    obtain ⟨_, ce, hce, _⟩ := hinv.chBack t e he txid hmem
    exact absurd hce (by rw [hfresh]; intro hh; cases hh)
  have hvs_congr : ∀ (l : List Nat),
      (∀ c ∈ l, ∃ ce, lookupA c es = some ce) →
      vsizeSumOf NE l = vsizeSumOf es l := by
    intro l hm
    apply vsizeSumOf_congr
    intro c hc
    obtain ⟨ce, hce⟩ := hm c hc
    rw [hput hce, hce]
    exact (addAdjust_fields E.parents txid E.vsize E.fee c ce).1
  have hfs_congr : ∀ (l : List Nat),
      (∀ c ∈ l, ∃ ce, lookupA c es = some ce) →
      feeSumOf NE l = feeSumOf es l := by
    intro l hm
    apply feeSumOf_congr
    intro c hc
    obtain ⟨ce, hce⟩ := hm c hc
    rw [hput hce, hce]
    exact (addAdjust_fields E.parents txid E.vsize E.fee c ce).2.1
  refine ⟨?_, ?_, ?_, ?_, ?_, ?_, ?_, ?_, ?_⟩
  · rw [hNE]
    show (txid :: (es.map (fun kv =>
      (kv.1, addAdjust E.parents txid E.vsize E.fee kv.1 kv.2))).map Prod.fst).Nodup
    rw [keys_map_adjust]
    exact List.nodup_cons.mpr ⟨hfreshK, hinv.keysNodup⟩
  · intro t e' h
    rcases hget h with ⟨rfl, rfl⟩ | ⟨ht, e, he, rfl⟩
    · exact hT
    · rw [(addAdjust_fields E.parents txid E.vsize E.fee t e).2.2.1]
      exact hinv.txidEq t e he
  · intro t e' h
    rcases hget h with ⟨rfl, rfl⟩ | ⟨ht, e, he, rfl⟩
    · exact hpar_nodup
    · rw [(addAdjust_fields E.parents txid E.vsize E.fee t e).2.2.2]
      exact hinv.parNodup t e he
  · intro t e' h
    rcases hget h with ⟨rfl, rfl⟩ | ⟨ht, e, he, rfl⟩
    · rw [hch]
      exact List.nodup_nil
    · rw [addAdjust_children]
      split
      · exact setInsert_nodup (hinv.chNodup t e he)
      · exact hinv.chNodup t e he
  · intro t e' h c hc
    rcases hget h with ⟨rfl, rfl⟩ | ⟨ht, e, he, rfl⟩
    · rw [hch] at hc
      cases hc
    · rw [addAdjust_children] at hc
      have hcases : c = txid ∧ t ∈ E.parents ∨ c ∈ e.children := by
        by_cases hp : t ∈ E.parents
        · rw [if_pos hp] at hc
          rcases mem_setInsert.mp hc with hc | rfl
          · exact Or.inr hc
          · exact Or.inl ⟨rfl, hp⟩
        · rw [if_neg hp] at hc
          exact Or.inr hc
      rcases hcases with ⟨rfl, hp⟩ | hcmem
      · refine ⟨fun hh => ht hh.symm, E, ?_, hp⟩
        rw [hlookNE, if_pos rfl]
      · obtain ⟨hct, ce, hce, hcp⟩ := hinv.chBack t e he c hcmem
        refine ⟨hct, addAdjust E.parents txid E.vsize E.fee c ce, hput hce, ?_⟩
        rw [(addAdjust_fields E.parents txid E.vsize E.fee c ce).2.2.2]
        exact hcp
  · intro t e' h p hp'
    rcases hget h with ⟨rfl, rfl⟩ | ⟨ht, e, he, rfl⟩
    · obtain ⟨pe, hpe⟩ := hpar_live p hp'
      refine ⟨hlive_ne hpe, _, hput hpe, ?_⟩
      rw [addAdjust_children, if_pos hp']
      exact mem_setInsert_self _ pe.children
    · rw [(addAdjust_fields E.parents txid E.vsize E.fee t e).2.2.2] at hp'
      obtain ⟨hpt, pe, hpe, hpc⟩ := hinv.parBack t e he p hp'
      refine ⟨hpt, addAdjust E.parents txid E.vsize E.fee p pe, hput hpe, ?_⟩
      rw [addAdjust_children]
      split
      · exact mem_setInsert_of_mem txid hpc
      · exact hpc
  · intro t e' h
    rcases hget h with ⟨rfl, rfl⟩ | ⟨ht, e, he, rfl⟩
    · rw [hdc, hch]
      rfl
    · rw [(addAdjust_desc E.parents txid E.vsize E.fee t e).1, addAdjust_children]
      by_cases hp : t ∈ E.parents
      · rw [if_pos hp, if_pos hp]
        have hnot : txid ∉ e.children := hchild_not_txid he
        rw [setInsert_of_not_mem hnot]
        rw [hinv.descCount t e he]
        simp only [List.length_append, List.length_singleton]
        omega
      · rw [if_neg hp, if_neg hp]
        exact hinv.descCount t e he
  · intro t e' h
    rcases hget h with ⟨rfl, rfl⟩ | ⟨ht, e, he, rfl⟩
    · rw [hds, hch]
      simp [vsizeSumOf]
    · rw [(addAdjust_desc E.parents txid E.vsize E.fee t e).2.1, addAdjust_children,
        (addAdjust_fields E.parents txid E.vsize E.fee t e).1]
      have hlive : ∀ c ∈ e.children, ∃ ce, lookupA c es = some ce := by
        intro c hc
        obtain ⟨_, ce, hce, _⟩ := hinv.chBack t e he c hc
        exact ⟨ce, hce⟩
      by_cases hp : t ∈ E.parents
      · rw [if_pos hp, if_pos hp]
        have hnot : txid ∉ e.children := hchild_not_txid he
        rw [setInsert_of_not_mem hnot, vsizeSumOf_append, hvs_congr e.children hlive]
        rw [hlookNE, if_pos rfl]
        have := hinv.descSize t e he
        dsimp only [Option.elim]
        omega
      · rw [if_neg hp, if_neg hp]
        rw [hvs_congr e.children hlive]
        exact hinv.descSize t e he
  · intro t e' h
    rcases hget h with ⟨rfl, rfl⟩ | ⟨ht, e, he, rfl⟩
    · rw [hdf, hch]
      simp [feeSumOf]
    · rw [(addAdjust_desc E.parents txid E.vsize E.fee t e).2.2, addAdjust_children,
        (addAdjust_fields E.parents txid E.vsize E.fee t e).2.1]
      have hlive : ∀ c ∈ e.children, ∃ ce, lookupA c es = some ce := by
        intro c hc
        obtain ⟨_, ce, hce, _⟩ := hinv.chBack t e he c hc
        exact ⟨ce, hce⟩
      by_cases hp : t ∈ E.parents
      · rw [if_pos hp, if_pos hp]
        have hnot : txid ∉ e.children := hchild_not_txid he
        rw [setInsert_of_not_mem hnot, feeSumOf_append, hfs_congr e.children hlive]
        rw [hlookNE, if_pos rfl]
        have := hinv.descFees t e he
        dsimp only [Option.elim]
        omega
      · rw [if_neg hp, if_neg hp]
        rw [hfs_congr e.children hlive]
        exact hinv.descFees t e he

/-- `add_tx` preserves the mempool well-formedness invariant. -/
theorem add_tx_inv (st : MempoolState) (tx : Tx) (fee height : Nat)
    (hinv : MemInv st.entries) : MemInv (add_tx st tx fee height).2.entries := by
  unfold add_tx
  dsimp only
  split
  · exact hinv
  · rename_i hdup
    have hfresh0 : lookupA tx.txid st.entries = none := by
      cases hcc : lookupA tx.txid st.entries with
      | none => rfl
      | some e => rw [hcc] at hdup; simp at hdup
    split
    · exact hinv
    · split
      · exact hinv
      · split
        · exact hinv
        · split
          · rename_i e' st' heq
            by_cases hc : find_conflicts st tx ≠ []
            · rw [if_pos hc] at heq
              exact handle_replacement_inv st _ _ _ _ heq hinv
            · rw [if_neg hc] at heq
              injection heq with h1 h2
              rw [← h2]
              exact hinv
          · rename_i u st' heq
            have hst' : MemInv st'.entries ∧ lookupA tx.txid st'.entries = none := by
              by_cases hc : find_conflicts st tx ≠ []
              · rw [if_pos hc] at heq
                exact ⟨handle_replacement_inv st _ _ _ _ heq hinv,
                  handle_replacement_lookup_none st _ _ _ _ heq hfresh0⟩
              · rw [if_neg hc] at heq
                injection heq with h1 h2
                rw [← h2]
                exact ⟨hinv, hfresh0⟩
            split
            · exact hst'.1
            · apply maybe_evict_inv
              exact insert_entry_inv st'.entries hst'.1 tx.txid _
                hst'.2 rfl (find_parents_nodup st' tx) (find_parents_isSome st' tx)
                rfl rfl rfl rfl

/-- Every operation sequence from the empty mempool maintains the
well-formedness invariant. -/
theorem applyMempoolOps_inv :
    ∀ (ops : List MempoolOp) (st : MempoolState), MemInv st.entries →
      MemInv (applyMempoolOps ops st).entries := by
  intro ops
  induction ops with
  | nil => intro st h; exact h
  | cons op rest ih =>
    intro st h
    show MemInv (applyMempoolOps rest (applyMempoolOp st op)).entries
    apply ih
    cases op with
    | add tx fee height => exact add_tx_inv st tx fee height h
    | remove t => exact remove_tx_inv st t h

/-- C1 (amended): after any sequence of mempool operations from a fresh
mempool, every entry's descendant aggregates equal itself plus the sums over
its DIRECT children only (count = 1 + |children|, size/fees = self + child
sums) — not the transitive closure; ancestor aggregates are set at admission
from the direct parents' aggregates, which on the freshly built chain
A ← B ← C gives C the full closure values (3, 420, 2100). -/
theorem C1_descendant_local :
    (∀ (policy : MempoolPolicy) (ops : List MempoolOp),
        desc_local_invariant (applyMempoolOps ops (MempoolState.new_ policy)).entries) ∧
    (lookupA 3 st3.entries).map
        (fun e => (e.ancestor_count, e.ancestor_size, e.ancestor_fees)) =
      some (3, 420, 2100) := by
  constructor
  · intro policy ops
    have base : MemInv (MempoolState.new_ policy).entries := by
      constructor <;> first
        | exact List.nodup_nil
        | (intro t e h; cases h)
    have hinv := applyMempoolOps_inv ops (MempoolState.new_ policy) base
    intro t e h
    exact ⟨hinv.descCount t e h, hinv.descSize t e h, hinv.descFees t e h⟩
  · decide

/-- C1 witness: the direct-children descendant invariant evaluated at the
concrete chain root of `st3` (reached by three concrete `add_tx` calls). -/
theorem C1_descendant_local_witness :
    (lookupA 1 st3.entries).elim False
      (fun e => e.descendant_count = 1 + e.children.length ∧
        e.descendant_size = e.vsize + vsizeSumOf st3.entries e.children ∧
        e.descendant_fees = e.fee + feeSumOf st3.entries e.children) := by
  have hs : (lookupA 1 st3.entries).isSome = true := by decide
  obtain ⟨e, he⟩ := Option.isSome_iff_exists.mp hs
  rw [he]
  exact C1_descendant_local.1 MempoolPolicy.default_
    [.add txA 500 0, .add txB 700 0, .add txC 900 0] 1 e he

/-- C10: `add_tx` is not atomic on error after the RBF path.  On the reachable
state holding a 25-deep chain plus the RBF-signalling `txX`, admitting `txN`
(which both conflicts with `txX` and extends the chain) removes `txX` during
replacement handling, then fails the ancestor-limit check — the call returns
an error, yet `txX` is gone from the entries and from the `spends` index. -/
theorem C10_add_tx_not_atomic :
    (add_tx st10 txN 200 0).1 = .error .tooManyAncestors ∧
    (lookupA 50 st10.entries).isSome = true ∧
    lookupSpend (999, 0) st10.spends = some 50 ∧
    lookupA 50 (add_tx st10 txN 200 0).2.entries = none ∧
    lookupSpend (999, 0) (add_tx st10 txN 200 0).2.spends = none := by decide

end BtckNode
